import Mathlib

/-!
Verification development for the Speaker Identity Resolution Engine of the
ListenCarePlease backend (`backend/app/agents`).

The Python sources are embedded shallowly:

* Python `dict` values become association lists `List (String × α)` with
  insert-or-update semantics (`dictInsert`), which preserves both the
  key-uniqueness and the insertion order of Python dicts.
* Python `float` confidences and similarities become `ℚ`.
* Python `set` objects have no specified iteration order (string hashing is
  randomized per process).  Wherever the source iterates such a set
  (`all_speakers` in `merge_results_node`, `unused_names` in
  `apply_elimination_method`), the embedding takes an explicit enumeration
  parameter (`speakerOrder`, `nameOrder`); a theorem that needs the
  enumeration to be faithful states the corresponding side conditions.
* The external LLM reasoning capability of `name_based_tagging_node` is a
  function parameter returning `Except`, whose `error` case covers both a
  raised exception and an unparseable response.
* The numpy cosine-similarity computations of the two similarity tools are
  floating point; the tools are embedded over the per-profile similarity
  values they produce (`Option ℚ`, `none` marking a profile whose embedding
  is missing and is skipped by the source loop).
-/

/-- One mention judgment, as built by `name_based_tagging_node`
(`merge_results.py` reads the `speaker`, `name` and `confidence` keys). -/
structure MentionResult where
  speaker : String
  name : String
  confidence : ℚ
  reasoning : String := ""
  turn : Nat := 0
  time : ℚ := 0
  name_mentioned : String := ""
  err : Option String := none
deriving DecidableEq

/-- Per-speaker candidate record built during merging (the dict values of
`initial_mapping` / `refined_mapping` in `merge_results.py`; `method` and
`utterance_count` are only present on elimination entries, hence `Option`). -/
structure CandInfo where
  name : String
  confidence : ℚ
  evidence_count : Nat
  method : Option String := none
  utterance_count : Option Nat := none
deriving DecidableEq

/-- One entry of `final_mappings` in `merge_results_node`. -/
structure MappingEntry where
  speaker_label : String
  name : String
  confidence : ℚ
  match_method : String
  auto_matched : Bool
  needs_review : Bool
  utterance_count : Option Nat := none
deriving DecidableEq

/-- The accumulator value of `speaker_name_scores` in `merge_results_node`. -/
structure ScoreAcc where
  names : List String
  confidences : List ℚ
  evidence_count : Nat
deriving DecidableEq

/-- The accumulator value of `name_counts` / `name_scores` in
`merge_results_node`. -/
structure CountAcc where
  count : Nat
  total_confidence : ℚ
deriving DecidableEq

/-- One element of `unmapped_scores` in `merge_results_node`. -/
structure ScoreItem where
  speaker : String
  name : String
  confidence : ℚ
  score : ℚ
  evidence_count : Nat
deriving DecidableEq

/-- Lookup in an association list, returning the value of the first matching
key (Python dict indexing / `.get`). -/
def dictLookup {α : Type} (m : List (String × α)) (k : String) : Option α :=
  match m with
  | [] => none
  | p :: rest => if p.1 = k then some p.2 else dictLookup rest k

/-- Python `k in d` for a dict. -/
def dictContains {α : Type} (m : List (String × α)) (k : String) : Bool :=
  (dictLookup m k).isSome

/-- Python dict assignment `d[k] = v`: update in place when the key exists,
append otherwise. -/
def dictInsert {α : Type} (m : List (String × α)) (k : String) (v : α) :
    List (String × α) :=
  if dictContains m k then m.map (fun p => if p.1 = k then (k, v) else p)
  else m ++ [(k, v)]

/-- Python `defaultdict(list)` append `d[k].append(v)`. -/
def groupAppend {α : Type} (m : List (String × List α)) (k : String) (v : α) :
    List (String × List α) :=
  if dictContains m k then m.map (fun p => if p.1 = k then (p.1, p.2 ++ [v]) else p)
  else m ++ [(k, [v])]

/-- The `name_counts[name]["count"] += 1; ... += conf` update of
`merge_results_node` (defaultdict with zero default). -/
def countsUpdate (m : List (String × CountAcc)) (k : String) (c : ℚ) :
    List (String × CountAcc) :=
  if dictContains m k then
    m.map (fun p => if p.1 = k then (p.1, ⟨p.2.count + 1, p.2.total_confidence + c⟩) else p)
  else m ++ [(k, ⟨1, c⟩)]

/-- The per-speaker `speaker_name_scores` update of `merge_results_node`. -/
def scoresUpdate (m : List (String × ScoreAcc)) (k : String) (n : String) (c : ℚ) :
    List (String × ScoreAcc) :=
  if dictContains m k then
    m.map (fun p =>
      if p.1 = k then
        (p.1, ⟨p.2.names ++ [n], p.2.confidences ++ [c], p.2.evidence_count + 1⟩)
      else p)
  else m ++ [(k, ⟨[n], [c], 1⟩)]

/-- Python `max(l, key=...)`: the first element attaining the maximal key
(the running best is replaced only by a strictly greater key). -/
def firstMax {α : Type} (lt : α → α → Bool) : List α → Option α
  | [] => none
  | x :: xs => some (xs.foldl (fun c y => if lt c y then y else c) x)

/-- Python tuple comparison for the key
`(confidence, evidence_count)` used by the duplicate-name resolution. -/
def confEcLt (a b : String × CandInfo) : Bool :=
  decide (a.2.confidence < b.2.confidence) ||
    (decide (a.2.confidence = b.2.confidence) &&
      decide (a.2.evidence_count < b.2.evidence_count))

/-- Python tuple comparison for the key `(count, total_confidence / count)`
used to pick a speaker's best candidate name. -/
def countAvgLt (a b : String × CountAcc) : Bool :=
  decide (a.2.count < b.2.count) ||
    (decide (a.2.count = b.2.count) &&
      decide (a.2.total_confidence / (a.2.count : ℚ) <
        b.2.total_confidence / (b.2.count : ℚ)))

/-- Insert into an ascending list of labels (`sorted(unmapped_speakers)`). -/
def insertLabelAsc (x : String) : List String → List String
  | [] => [x]
  | y :: ys => if compare x y = Ordering.gt then y :: insertLabelAsc x ys
               else x :: y :: ys

/-- Python `sorted` on speaker labels. -/
def sortLabels (l : List String) : List String := l.foldr insertLabelAsc []

/-- Stable descending insertion by `score`
(`unmapped_scores.sort(key=..., reverse=True)`). -/
def insertScoreDesc (x : ScoreItem) : List ScoreItem → List ScoreItem
  | [] => [x]
  | y :: ys => if x.score ≤ y.score then y :: insertScoreDesc x ys else x :: y :: ys

/-- Stable descending sort by `score`. -/
def sortScoreDesc (l : List ScoreItem) : List ScoreItem :=
  l.foldl (fun acc x => insertScoreDesc x acc) []

/-- Stable descending insertion by utterance count
(`remaining_with_utterances.sort(key=..., reverse=True)`). -/
def insertCountDesc (x : String × Nat) : List (String × Nat) → List (String × Nat)
  | [] => [x]
  | y :: ys => if x.2 ≤ y.2 then y :: insertCountDesc x ys else x :: y :: ys

/-- Stable descending sort by utterance count. -/
def sortCountDesc (l : List (String × Nat)) : List (String × Nat) :=
  l.foldl (fun acc x => insertCountDesc x acc) []

/-- The `speaker_name_scores` aggregation of `merge_results_node` (lines
114-122): every mention judgment whose `speaker` is truthy and not
`"Unknown"` contributes its name and confidence to that speaker. -/
def speakerNameScores (nbr : List (String × List MentionResult)) :
    List (String × ScoreAcc) :=
  nbr.foldl
    (fun acc p =>
      p.2.foldl
        (fun acc r =>
          if r.speaker ≠ "" ∧ r.speaker ≠ "Unknown" then
            scoresUpdate acc r.speaker r.name r.confidence
          else acc)
        acc)
    []

/-- The `name_counts` grouping of `merge_results_node` (lines 131-134). -/
def nameCounts (names : List String) (confs : List ℚ) : List (String × CountAcc) :=
  (names.zip confs).foldl (fun acc p => countsUpdate acc p.1 p.2) []

/-- The `initial_mapping` construction of `merge_results_node` (lines
124-147): for every non-auto-matched speaker with mention evidence, pick the
name with the maximal `(count, average confidence)` key. -/
def initialMapping (allSp : List String) (auto : List (String × String))
    (scores : List (String × ScoreAcc)) : List (String × CandInfo) :=
  allSp.foldl
    (fun acc sp =>
      if dictContains auto sp then acc
      else
        let sc := (dictLookup scores sp).getD ⟨[], [], 0⟩
        if sc.names ≠ [] then
          match firstMax countAvgLt (nameCounts sc.names sc.confidences) with
          | some bc =>
              dictInsert acc sp
                ⟨bc.1, bc.2.total_confidence / (bc.2.count : ℚ), sc.evidence_count,
                  none, none⟩
          | none => acc
        else acc)
    []

/-- The `name_to_speakers` grouping of `apply_elimination_method` (lines
37-41): group the candidate mapping by claimed name, skipping falsy names. -/
def nameGroups (mapping : List (String × CandInfo)) :
    List (String × List (String × CandInfo)) :=
  mapping.foldl
    (fun acc p => if p.2.name ≠ "" then groupAppend acc p.2.name p else acc) []

/-- The claimant kept for one name group in `apply_elimination_method`
(lines 44-56): the `max` by `(confidence, evidence_count)` when the group is
contested, otherwise its only member. -/
def groupWinner (claimants : List (String × CandInfo)) : Option (String × CandInfo) :=
  if 1 < claimants.length then firstMax confEcLt claimants
  else claimants.head?

/-- Step 1 of `apply_elimination_method`: duplicate-name resolution. -/
def dedupMapping (mapping : List (String × CandInfo)) : List (String × CandInfo) :=
  (nameGroups mapping).foldl
    (fun refined g =>
      match groupWinner g.2 with
      | some w => dictInsert refined w.1 w.2
      | none => refined)
    []

/-- One speaker of the elimination loop of `apply_elimination_method` (lines
67-81); the state is the refined mapping together with the remaining
enumeration of `unused_names`. -/
def elimStep (speaker_utterances : List (String × List String))
    (st : List (String × CandInfo) × List String) (sp : String) :
    List (String × CandInfo) × List String :=
  let utterance_count := ((dictLookup speaker_utterances sp).getD []).length
  if 3 ≤ utterance_count then
    match st.2 with
    | [] => st
    | n :: rest =>
        (dictInsert st.1 sp ⟨n, 1/2, 0, some "소거법", some utterance_count⟩, rest)
  else st

/-- Step 2 of `apply_elimination_method`: the 1:1 elimination pass.
`nameOrder` is the hash-iteration order of the Python set
`set(participant_names) - used_names` consumed by `list(unused_names)[0]`. -/
def eliminationPass (refined : List (String × CandInfo)) (all_speakers : List String)
    (participant_names : List String)
    (speaker_utterances : List (String × List String))
    (nameOrder : List String) : List (String × CandInfo) :=
  let mapped := refined.map Prod.fst
  let unmapped := all_speakers.filter (fun s => decide (s ∉ mapped))
  let used := (refined.map (fun p => p.2.name)).filter (fun n => decide (n ≠ ""))
  let unused := nameOrder.filter (fun n => decide (n ∈ participant_names ∧ n ∉ used))
  if unmapped.length = unused.length ∧ 0 < unmapped.length then
    ((sortLabels unmapped).foldl (elimStep speaker_utterances) (refined, unused)).1
  else refined

/-- `apply_elimination_method` of `merge_results.py`: duplicate-name
resolution followed by the 1:1 elimination pass. -/
def apply_elimination_method (mapping : List (String × CandInfo))
    (all_speakers : List String) (participant_names : List String)
    (speaker_utterances : List (String × List String))
    (nameOrder : List String) : List (String × CandInfo) :=
  eliminationPass (dedupMapping mapping) all_speakers participant_names
    speaker_utterances nameOrder

/-- The loop of `merge_results_node` lines 157-171 turning the refined
mapping into final entries; the state also carries the `needs_review` list. -/
def refinedEntryStep (st : List (String × MappingEntry) × List String)
    (p : String × CandInfo) : List (String × MappingEntry) × List String :=
  let confidence := p.2.confidence
  let method := p.2.method.getD "name_based"
  let nr : Bool := decide (confidence < 7/10) || decide (method = "소거법")
  let entry : MappingEntry := ⟨p.1, p.2.name, confidence, method, false, nr, none⟩
  (dictInsert st.1 p.1 entry, if nr then st.2 ++ [p.1] else st.2)

/-- The `unmapped_scores` collection of `merge_results_node` (lines
179-202): for a still-unmapped speaker, the best currently-unused candidate
name with its combined score. -/
def collectScoreItem (scores : List (String × ScoreAcc)) (unused : List String)
    (acc : List ScoreItem) (sp : String) : List ScoreItem :=
  let sc := (dictLookup scores sp).getD ⟨[], [], 0⟩
  if sc.names ≠ [] then
    let ns := (sc.names.zip sc.confidences).foldl
      (fun m p => if p.1 ∈ unused then countsUpdate m p.1 p.2 else m) []
    if ns ≠ [] then
      match firstMax countAvgLt ns with
      | some bc =>
          let avg := bc.2.total_confidence / (bc.2.count : ℚ)
          acc ++ [⟨sp, bc.1, avg, (bc.2.count : ℚ) * (1/2) + avg * (1/2), bc.2.count⟩]
      | none => acc
    else acc
  else acc

/-- State of the greedy score-based assignment loop (lines 204-218). -/
structure GreedyState where
  fm : List (String × MappingEntry)
  nr : List String
  used_in_round : List String
  unused_names : List String

/-- One item of the greedy score-based assignment loop. -/
def greedyStep (g : GreedyState) (item : ScoreItem) : GreedyState :=
  if item.name ∉ g.used_in_round ∧ item.name ∈ g.unused_names then
    let nrFlag : Bool := decide (item.confidence < 7/10)
    let entry : MappingEntry :=
      ⟨item.speaker, item.name, item.confidence, "score_based", false, nrFlag, none⟩
    { fm := dictInsert g.fm item.speaker entry,
      nr := if nrFlag then g.nr ++ [item.speaker] else g.nr,
      used_in_round := g.used_in_round ++ [item.name],
      unused_names := g.unused_names.erase item.name }
  else g

/-- State of the residual elimination loop (lines 227-240). -/
structure ResidState where
  fm : List (String × MappingEntry)
  nr : List String
  unused_names : List String

/-- One speaker of the residual elimination loop: assign the first remaining
unused name (`unused_names[0]` followed by `unused_names.remove`). -/
def residStep (r : ResidState) (p : String × Nat) : ResidState :=
  match r.unused_names with
  | [] => r
  | n :: rest =>
      { fm := dictInsert r.fm p.1 ⟨p.1, n, 1/2, "소거법", false, true, some p.2⟩,
        nr := r.nr ++ [p.1],
        unused_names := rest }

/-- The final loop of `merge_results_node` (lines 241-251): every observed
speaker still unmapped receives the `"Unknown"` fallback entry. -/
def fillStep (st : List (String × MappingEntry) × List String) (sp : String) :
    List (String × MappingEntry) × List String :=
  if (dictLookup st.1 sp).isSome then st
  else
    (dictInsert st.1 sp ⟨sp, "Unknown", 0, "none", false, true, none⟩,
      st.2 ++ [sp])

/-- The evidence-merger input slice of `AgentState` read by
`merge_results_node`. -/
structure MergeInput where
  auto_matched : List (String × String)
  name_based_results : List (String × List MentionResult)
  speaker_utterances : List (String × List String)
  participant_names : List String

/-- `merge_results_node` of `merge_results.py`.  `speakerOrder` is the
hash-iteration order of the Python set `all_speakers`; `nameOrder` the one of
the `unused_names` set inside `apply_elimination_method`.  Returns
`final_mappings` together with the `needs_manual_review` list. -/
def merge_results_node (st : MergeInput) (speakerOrder nameOrder : List String) :
    List (String × MappingEntry) × List String :=
  let seeded := st.auto_matched.foldl
    (fun fm p => dictInsert fm p.1 ⟨p.1, p.2, 1, "embedding", true, false, none⟩) []
  let suKeys := st.speaker_utterances.map Prod.fst
  let all_speakers := speakerOrder.filter (fun s => decide (s ∈ suKeys))
  let scores := speakerNameScores st.name_based_results
  let initial := initialMapping all_speakers st.auto_matched scores
  let refined := apply_elimination_method initial all_speakers
    st.participant_names st.speaker_utterances nameOrder
  let fmnr := refined.foldl refinedEntryStep (seeded, [])
  let unmapped := all_speakers.filter (fun s => decide (dictLookup fmnr.1 s = none))
  let usedNames := (fmnr.1.map (fun p => p.2.name)).filter
    (fun n => decide (n ≠ "" ∧ n ≠ "Unknown"))
  let unusedNames := st.participant_names.filter (fun n => decide (n ∉ usedNames))
  let fmnr2 :=
    if unmapped ≠ [] ∧ unusedNames ≠ [] then
      let items := unmapped.foldl (collectScoreItem scores unusedNames) []
      let g := (sortScoreDesc items).foldl greedyStep ⟨fmnr.1, fmnr.2, [], unusedNames⟩
      let remaining := unmapped.filter (fun s => decide (dictLookup g.fm s = none))
      let remainingCounts := remaining.filterMap (fun sp =>
        let c := ((dictLookup st.speaker_utterances sp).getD []).length
        if 3 ≤ c then some (sp, c) else none)
      let r := (sortCountDesc remainingCounts).foldl residStep
        ⟨g.fm, g.nr, g.unused_names⟩
      (r.fm, r.nr)
    else fmnr
  all_speakers.foldl fillStep fmnr2

/-- `group_by_speaker` of `name_extraction.py`: partition the transcript by
speaker label, skipping empty texts. -/
def group_by_speaker (stt_result : List (String × String)) :
    List (String × List String) :=
  stt_result.foldl
    (fun acc seg => if seg.2 ≠ "" then groupAppend acc seg.1 seg.2 else acc) []

/-- Result dict of `calculate_voice_similarity`. -/
structure SimResult where
  matched_profile : Option String
  similarity : ℚ
  threshold_passed : Bool
deriving DecidableEq

/-- Result dict of `calculate_text_similarity` (it carries no
`threshold_passed` key). -/
structure TextSimResult where
  matched_profile : Option String
  similarity : ℚ
deriving DecidableEq

/-- The best-match loop shared by both similarity tools: starting from
`(None, 0.0)`, a profile becomes the best match only when its similarity
strictly exceeds the running best; profiles whose stored embedding is
missing (`none`) are skipped.  Each list element is a stored profile's name
paired with its cosine similarity to the current speaker. -/
def bestSim (sims : List (String × Option ℚ)) : Option String × ℚ :=
  sims.foldl
    (fun best p =>
      match p.2 with
      | none => best
      | some s => if best.2 < s then (some p.1, s) else best)
    (none, 0)

/-- `calculate_voice_similarity` of `voice_similarity_tool.py`, embedded
over the per-profile similarity values. -/
def calculate_voice_similarity (sims : List (String × Option ℚ)) : SimResult :=
  if sims = [] then ⟨none, 0, false⟩
  else
    let b := bestSim sims
    ⟨if 85/100 ≤ b.2 then b.1 else none, b.2, decide (85/100 ≤ b.2)⟩

/-- `calculate_text_similarity` of `text_similarity_tool.py`, embedded over
the per-profile similarity values; `apiOk = false` is the exception branch
of the embedding API call, which returns a no-match result. -/
def calculate_text_similarity (sims : List (String × Option ℚ)) (apiOk : Bool) :
    TextSimResult :=
  if sims = [] then ⟨none, 0⟩
  else if apiOk then
    let b := bestSim sims
    ⟨if 85/100 ≤ b.2 then b.1 else none, b.2⟩
  else ⟨none, 0⟩

/-- A stored profile together with the two channel similarities of one
speaker against it (`none` marks a missing embedding vector). -/
structure ProfileSim where
  name : String
  voice : Option ℚ
  text : Option ℚ
deriving DecidableEq

/-- The per-speaker body of `embedding_match_node` (lines 37-62): skip
speakers without utterances, call both tools, and auto-match only when the
voice threshold passes, the text similarity is strictly above 0.85, and both
channels name the same non-null profile. -/
def embeddingMatchSpeaker (utterances : List String) (profiles : List ProfileSim)
    (apiOk : Bool) : Option String :=
  if utterances = [] then none
  else
    let vr := calculate_voice_similarity (profiles.map (fun p => (p.name, p.voice)))
    let tr := calculate_text_similarity (profiles.map (fun p => (p.name, p.text))) apiOk
    if vr.threshold_passed ∧ 85/100 < tr.similarity ∧
        vr.matched_profile = tr.matched_profile ∧ vr.matched_profile ≠ none then
      vr.matched_profile
    else none

/-- The auto-match criterion exactly as the specification words it (§4.1):
similarity of both channels at least 0.85 and both channels select the same
profile as their strictly-highest best match (on an exact tie, no match). -/
def specAutoMatchCriterion (profiles : List ProfileSim) (P : String) : Prop :=
  (∃ vs, (∃ p, p ∈ profiles ∧ p.name = P ∧ p.voice = some vs) ∧ 85/100 ≤ vs ∧
    (∀ q ∈ profiles, ∀ t, q.voice = some t → q.name ≠ P → t < vs)) ∧
  (∃ ts, (∃ p, p ∈ profiles ∧ p.name = P ∧ p.text = some ts) ∧ 85/100 ≤ ts ∧
    (∀ q ∈ profiles, ∀ t, q.text = some t → q.name ≠ P → t < ts))

/-- Parsed LLM response of `name_based_tagging_node`
(`SpeakerMappingResult`). -/
structure ParsedJudgment where
  speaker : String
  name : String
  confidence : ℚ
  reasoning : String
deriving DecidableEq

/-- One name-mention event as consumed by `name_based_tagging_node`. -/
structure NameMention where
  name : String
  context_before : List String := []
  context_after : List String := []
  time : ℚ := 0
  target_text : String := ""
  target_speaker : String := ""
deriving DecidableEq

/-- The reasoning capability: given the participant names, the turn number,
the accumulated mapping history and the mention event, either a parsed
judgment or an error (a raised exception or an unparseable response). -/
def Reasoner : Type :=
  List String → Nat → List MentionResult → NameMention → Except String ParsedJudgment

/-- State threaded through the mention loop of `name_based_tagging_node`:
`name_results`, the `mapping_history` list, and the current turn number. -/
structure TagState where
  name_results : List (String × List MentionResult)
  mapping_history : List MentionResult
  turn : Nat
deriving DecidableEq

/-- The zero-confidence fallback judgment recorded on a reasoning failure
(lines 132-144 of `name_based_tagging.py`). -/
def fallbackResult (m : NameMention) (turn : Nat) (e : String) : MentionResult :=
  ⟨"Unknown", "Unknown", 0, "에러: " ++ e.take 100, turn, m.time, m.name,
    some (e.take 200)⟩

/-- One iteration of the mention loop of `name_based_tagging_node`: on
success the judgment goes to the history and to `name_results[name]`; on
failure only the fallback judgment is appended to the history.  Either way
the loop continues with the next event. -/
def tagStep (llm : Reasoner) (pnames : List String) (st : TagState)
    (m : NameMention) : TagState :=
  match llm pnames st.turn st.mapping_history m with
  | Except.ok r =>
      let result : MentionResult :=
        ⟨r.speaker, r.name, r.confidence, r.reasoning, st.turn, m.time, m.name, none⟩
      ⟨groupAppend st.name_results m.name result,
        st.mapping_history ++ [result], st.turn + 1⟩
  | Except.error e =>
      ⟨st.name_results, st.mapping_history ++ [fallbackResult m st.turn e],
        st.turn + 1⟩

/-- `name_based_tagging_node` of `name_based_tagging.py`: process the
mention events in order (turns numbered from 1), starting from the incoming
`mapping_history`. -/
def name_based_tagging_node (llm : Reasoner) (pnames : List String)
    (mentions : List NameMention) (history : List MentionResult) : TagState :=
  if mentions = [] then ⟨[], history, 1⟩
  else mentions.foldl (tagStep llm pnames) ⟨[], history, 1⟩

/-- All names occurring in mention judgments of `name_based_results`. -/
def mentionNames (nbr : List (String × List MentionResult)) : List String :=
  (nbr.map (fun p => p.2.map (fun r => r.name))).flatten

/-- Drop every mention judgment whose `speaker` field is the sentinel
`"Unknown"` (these are exactly the judgments skipped by the
`speaker_name_scores` aggregation of `merge_results_node`). -/
def dropUnknownJudgments (nbr : List (String × List MentionResult)) :
    List (String × List MentionResult) :=
  nbr.map (fun p => (p.1, p.2.filter (fun r => decide (r.speaker ≠ "Unknown"))))

/-- The confidence-review coupling of the specification: the review flag
holds exactly when the confidence is below 0.7 or the method is elimination
(`"소거법"` in the source) or none. -/
def reviewCoupled (e : MappingEntry) : Prop :=
  e.needs_review = true ↔
    (e.confidence < 7/10 ∨ e.match_method = "소거법" ∨ e.match_method = "none")

/-- A channel selects the pair `(P, s)` as its best match exactly when the
list splits as earlier profiles (all with similarity strictly below `s`,
so ties are resolved in favour of the earliest profile), the profile `P`
with similarity `s > 0`, and later profiles (all with similarity at most
`s`). -/
def firstStrictBest (sims : List (String × Option ℚ)) (P : String) (s : ℚ) : Prop :=
  0 < s ∧
  ∃ l1 l2, sims = l1 ++ (P, some s) :: l2 ∧
    (∀ q ∈ l1, ∀ t, q.2 = some t → t < s) ∧
    (∀ q ∈ l2, ∀ t, q.2 = some t → t ≤ s)

/-- The auto-match criterion the code actually implements (the amended
C4 claim): the speaker has utterances, the text-embedding call succeeded,
the voice channel's first strictly-highest best match is `P` with
similarity at least 0.85, and the text channel's first strictly-highest
best match is `P` with similarity strictly above 0.85. -/
def amendedAutoMatchCriterion (profiles : List ProfileSim) (P : String)
    (apiOk : Bool) (utterances : List String) : Prop :=
  utterances ≠ [] ∧ apiOk = true ∧
  (∃ vs, 85/100 ≤ vs ∧
    firstStrictBest (profiles.map (fun p => (p.name, p.voice))) P vs) ∧
  (∃ ts, 85/100 < ts ∧
    firstStrictBest (profiles.map (fun p => (p.name, p.text))) P ts)

theorem foldl_induction {α β : Type} (P : β → Prop) (f : β → α → β) :
    ∀ (l : List α) (init : β), P init → (∀ b a, a ∈ l → P b → P (f b a)) →
      P (l.foldl f init)
  | [], _, h0, _ => h0
  | x :: xs, init, h0, hstep =>
      foldl_induction P f xs (f init x) (hstep init x (by simp) h0)
        (fun b a ha hb => hstep b a (by simp [ha]) hb)

theorem dictLookup_append_none {α : Type} (m m' : List (String × α)) (k : String)
    (h : dictLookup m k = none) : dictLookup (m ++ m') k = dictLookup m' k := by
  induction m with
  | nil => simp
  | cons p rest ih =>
      by_cases hp : p.1 = k
      · simp [dictLookup, hp] at h
      · simp only [dictLookup, hp, if_false] at h
        simp only [List.cons_append, dictLookup, hp, if_false]
        exact ih h

theorem dictLookup_append_some {α : Type} (m m' : List (String × α)) (k : String)
    (v : α) (h : dictLookup m k = some v) : dictLookup (m ++ m') k = some v := by
  induction m with
  | nil => simp [dictLookup] at h
  | cons p rest ih =>
      by_cases hp : p.1 = k
      · simp only [dictLookup, hp, if_true] at h
        simp only [List.cons_append, dictLookup, hp, if_true]
        exact h
      · simp only [dictLookup, hp, if_false] at h
        simp only [List.cons_append, dictLookup, hp, if_false]
        exact ih h

theorem dictLookup_update_self {α : Type} (m : List (String × α)) (k : String)
    (v : α) (h : (dictLookup m k).isSome) :
    dictLookup (m.map (fun p => if p.1 = k then (k, v) else p)) k = some v := by
  induction m with
  | nil => simp [dictLookup] at h
  | cons p rest ih =>
      simp only [List.map_cons]
      by_cases hp : p.1 = k
      · rw [if_pos hp]
        simp [dictLookup]
      · rw [if_neg hp]
        simp only [dictLookup, hp, if_false] at h
        simp only [dictLookup, hp, if_false]
        exact ih h

theorem dictLookup_update_ne {α : Type} (m : List (String × α)) (k k' : String)
    (v : α) (h : k' ≠ k) :
    dictLookup (m.map (fun p => if p.1 = k then (k, v) else p)) k' =
      dictLookup m k' := by
  induction m with
  | nil => simp
  | cons p rest ih =>
      simp only [List.map_cons]
      by_cases hp : p.1 = k
      · rw [if_pos hp]
        have h1 : ¬(k = k') := fun hc => h hc.symm
        have h2 : ¬(p.1 = k') := by rw [hp]; exact h1
        simp only [dictLookup, h1, h2, if_false]
        exact ih
      · rw [if_neg hp]
        simp only [dictLookup]
        by_cases hp' : p.1 = k'
        · simp [hp']
        · simp only [hp', if_false]
          exact ih

theorem dictLookup_dictInsert_self {α : Type} (m : List (String × α)) (k : String)
    (v : α) : dictLookup (dictInsert m k v) k = some v := by
  unfold dictInsert dictContains
  by_cases h : (dictLookup m k).isSome
  · simpa [h] using dictLookup_update_self m k v h
  · have hn : dictLookup m k = none := by
      cases hx : dictLookup m k with
      | none => rfl
      | some w => simp [hx] at h
    simp only [h, if_false, Bool.false_eq_true]
    rw [dictLookup_append_none m _ k hn]
    simp [dictLookup]

theorem dictLookup_dictInsert_ne {α : Type} (m : List (String × α)) (k k' : String)
    (v : α) (h : k' ≠ k) :
    dictLookup (dictInsert m k v) k' = dictLookup m k' := by
  unfold dictInsert dictContains
  by_cases hc : (dictLookup m k).isSome
  · simpa [hc] using dictLookup_update_ne m k k' v h
  · have hn : dictLookup m k = none := by
      cases hx : dictLookup m k with
      | none => rfl
      | some w => simp [hx] at hc
    simp only [hc, if_false, Bool.false_eq_true]
    cases hx : dictLookup m k' with
    | none =>
        rw [dictLookup_append_none m _ k' hx]
        simp [dictLookup, show ¬(k = k') from fun hc' => h hc'.symm]
    | some w => exact dictLookup_append_some m _ k' w hx

theorem keys_dictInsert {α : Type} (m : List (String × α)) (k : String) (v : α) :
    (dictInsert m k v).map Prod.fst =
      if dictContains m k then m.map Prod.fst else m.map Prod.fst ++ [k] := by
  unfold dictInsert
  by_cases h : dictContains m k
  · simp only [h, if_true, List.map_map]
    refine List.map_congr_left (fun p _ => ?_)
    by_cases hp : p.1 = k
    · simp [Function.comp, hp]
    · simp [Function.comp, hp]
  · simp [h]

theorem dictContains_iff_mem_keys {α : Type} (m : List (String × α)) (k : String) :
    dictContains m k = true ↔ k ∈ m.map Prod.fst := by
  unfold dictContains
  induction m with
  | nil => simp [dictLookup]
  | cons p rest ih =>
      by_cases hp : p.1 = k
      · simp [dictLookup, hp]
      · simp only [dictLookup, hp, if_false, List.map_cons, List.mem_cons]
        rw [ih]
        constructor
        · exact fun h => Or.inr h
        · rintro (h | h)
          · exact absurd h.symm hp
          · exact h

theorem dictLookup_eq_some_mem {α : Type} (m : List (String × α)) (k : String)
    (v : α) (h : dictLookup m k = some v) : (k, v) ∈ m := by
  induction m with
  | nil => simp [dictLookup] at h
  | cons p rest ih =>
      by_cases hp : p.1 = k
      · simp only [dictLookup, hp, if_true, Option.some.injEq] at h
        have hpe : p = (k, v) := by
          cases p
          simp only at hp h
          simp [hp, h]
        rw [← hpe]
        exact List.mem_cons_self p rest
      · simp only [dictLookup, hp, if_false] at h
        exact List.mem_cons_of_mem p (ih h)

theorem keys_nodup_dictInsert {α : Type} (m : List (String × α)) (k : String)
    (v : α) (h : (m.map Prod.fst).Nodup) :
    ((dictInsert m k v).map Prod.fst).Nodup := by
  rw [keys_dictInsert]
  by_cases hc : dictContains m k
  · simpa [hc] using h
  · have hk : k ∉ m.map Prod.fst := by
      intro hmem
      exact hc ((dictContains_iff_mem_keys m k).mpr hmem)
    have hnd : (m.map Prod.fst ++ [k]).Nodup := by
      rw [List.nodup_append]
      refine ⟨h, List.nodup_singleton k, ?_⟩
      intro a ha hb
      simp only [List.mem_singleton] at hb
      exact hk (hb ▸ ha)
    simpa [hc] using hnd

theorem mem_of_mem_dictInsert {α : Type} {m : List (String × α)} {k : String}
    {v : α} {p : String × α} (h : p ∈ dictInsert m k v) : p = (k, v) ∨ p ∈ m := by
  unfold dictInsert at h
  by_cases hc : dictContains m k
  · simp only [hc, if_true, List.mem_map] at h
    obtain ⟨q, hq, hqe⟩ := h
    by_cases hq1 : q.1 = k
    · simp only [hq1, if_true] at hqe
      exact Or.inl hqe.symm
    · simp only [hq1, if_false] at hqe
      exact Or.inr (hqe ▸ hq)
  · simp only [hc, if_false, Bool.false_eq_true, List.mem_append, List.mem_singleton] at h
    rcases h with h | h
    · exact Or.inr h
    · exact Or.inl h

/-- C1: refuting evaluation.  With SPEAKER_00 auto-matched to "Kim", no
mention evidence, participant list ["Lee"] and three utterances, the
elimination pass inside `apply_elimination_method` treats the auto-matched
speaker as unmapped (it only subtracts the keys of the refined candidate
mapping, which never contains auto-matches) and the loop over the refined
mapping then overwrites the seeded entry: the final mapping gives
SPEAKER_00 the name "Lee" with confidence 0.5, elimination method and
`auto_matched = false`, instead of keeping name "Kim", confidence 1.0,
method embedding. -/
theorem claim_C1_auto_match_overwritten :
    dictLookup (merge_results_node
      ⟨[("SPEAKER_00", "Kim")], [], [("SPEAKER_00", ["a", "b", "c"])], ["Lee"]⟩
      ["SPEAKER_00"] ["Lee"]).1 "SPEAKER_00" =
    some ⟨"SPEAKER_00", "Lee", 1/2, "소거법", false, true, none⟩ := by
  norm_num [merge_results_node, apply_elimination_method, eliminationPass,
    dedupMapping, nameGroups, groupWinner, firstMax, confEcLt, countAvgLt, initialMapping,
    speakerNameScores, scoresUpdate, countsUpdate, nameCounts, dictLookup, dictContains,
    dictInsert, groupAppend, refinedEntryStep, collectScoreItem, greedyStep, residStep,
    fillStep, sortLabels, insertLabelAsc, sortScoreDesc, insertScoreDesc, sortCountDesc,
    insertCountDesc, elimStep]

/-- C3: refuting evaluation.  SPEAKER_00 is auto-matched to "Kim" while a
single high-confidence mention judgment also claims "Kim" for SPEAKER_01;
the duplicate resolution of `apply_elimination_method` only compares
candidates inside the refined mapping and never checks the auto-matched
names, so the final mapping assigns the non-sentinel name "Kim" to both
distinct speakers. -/
theorem claim_C3_duplicate_name_in_final_mapping :
    dictLookup (merge_results_node
      ⟨[("SPEAKER_00", "Kim")],
       [("Kim", [⟨"SPEAKER_01", "Kim", 9/10, "", 0, 0, "", none⟩])],
       [("SPEAKER_00", ["a"]), ("SPEAKER_01", ["b"])], ["Kim"]⟩
      ["SPEAKER_00", "SPEAKER_01"] ["Kim"]).1 "SPEAKER_00" =
      some ⟨"SPEAKER_00", "Kim", 1, "embedding", true, false, none⟩ ∧
    dictLookup (merge_results_node
      ⟨[("SPEAKER_00", "Kim")],
       [("Kim", [⟨"SPEAKER_01", "Kim", 9/10, "", 0, 0, "", none⟩])],
       [("SPEAKER_00", ["a"]), ("SPEAKER_01", ["b"])], ["Kim"]⟩
      ["SPEAKER_00", "SPEAKER_01"] ["Kim"]).1 "SPEAKER_01" =
      some ⟨"SPEAKER_01", "Kim", 9/10, "name_based", false, false, none⟩ := by
  constructor <;>
    (norm_num [merge_results_node, apply_elimination_method, eliminationPass,
      dedupMapping, nameGroups, groupWinner, firstMax, confEcLt, countAvgLt, initialMapping,
      speakerNameScores, scoresUpdate, countsUpdate, nameCounts, dictLookup, dictContains,
      dictInsert, groupAppend, refinedEntryStep, collectScoreItem, greedyStep, residStep,
      fillStep, sortLabels, insertLabelAsc, sortScoreDesc, insertScoreDesc, sortCountDesc,
      insertCountDesc, elimStep] <;>
     simp)

/-- C8: refuting evaluation.  The same evidence input (two speakers with
three utterances each, no auto-matches, no mention judgments, participant
names A and B) merged under two different hash-iteration orders of the
`unused_names` set gives SPEAKER 1 the name "A" in one run and "B" in the
other: `list(unused_names)[0]` in `apply_elimination_method` depends on the
set iteration order, so identical evidence alone does not determine the
final mapping. -/
theorem claim_C8_merge_depends_on_set_order :
    dictLookup (merge_results_node
      ⟨[], [], [("S1", ["a", "b", "c"]), ("S2", ["a", "b", "c"])], ["A", "B"]⟩
      ["S1", "S2"] ["A", "B"]).1 "S1" ≠
    dictLookup (merge_results_node
      ⟨[], [], [("S1", ["a", "b", "c"]), ("S2", ["a", "b", "c"])], ["A", "B"]⟩
      ["S1", "S2"] ["B", "A"]).1 "S1" := by
  norm_num [merge_results_node, apply_elimination_method, eliminationPass,
    dedupMapping, nameGroups, groupWinner, firstMax, confEcLt, countAvgLt, initialMapping,
    speakerNameScores, scoresUpdate, countsUpdate, nameCounts, dictLookup, dictContains,
    dictInsert, groupAppend, refinedEntryStep, collectScoreItem, greedyStep, residStep,
    fillStep, sortLabels, insertLabelAsc, sortScoreDesc, insertScoreDesc, sortCountDesc,
    insertCountDesc, elimStep]
  simp

theorem scoresFold_filter_unknown (rs : List MentionResult)
    (acc : List (String × ScoreAcc)) :
    (rs.filter (fun r => decide (r.speaker ≠ "Unknown"))).foldl
      (fun acc r =>
        if r.speaker ≠ "" ∧ r.speaker ≠ "Unknown" then
          scoresUpdate acc r.speaker r.name r.confidence
        else acc) acc =
    rs.foldl
      (fun acc r =>
        if r.speaker ≠ "" ∧ r.speaker ≠ "Unknown" then
          scoresUpdate acc r.speaker r.name r.confidence
        else acc) acc := by
  induction rs generalizing acc with
  | nil => rfl
  | cons r rs ih =>
      by_cases hr : r.speaker = "Unknown"
      · simp only [List.filter_cons, List.foldl_cons, hr]
        simpa [hr] using ih acc
      · simp only [List.filter_cons, List.foldl_cons, hr]
        simpa [hr] using ih _

theorem speakerNameScores_dropUnknown (nbr : List (String × List MentionResult)) :
    speakerNameScores (dropUnknownJudgments nbr) = speakerNameScores nbr := by
  unfold speakerNameScores dropUnknownJudgments
  rw [List.foldl_map]
  refine List.foldl_ext _ _ [] ?_
  intro acc p hp
  exact scoresFold_filter_unknown p.2 acc

/-- C10: mention judgments whose `speaker` field is `"Unknown"` (in
particular every zero-confidence failure fallback) are skipped by the
`speaker_name_scores` aggregation of `merge_results_node`, the only place
the merger reads `name_based_results`; hence removing all of them — and
therefore also adding or removing any of them — leaves the final mapping
and the review list unchanged for every input and every set-iteration
order. -/
theorem claim_C10_unknown_judgments_ignored (st : MergeInput)
    (speakerOrder nameOrder : List String) :
    merge_results_node
      ⟨st.auto_matched, dropUnknownJudgments st.name_based_results,
        st.speaker_utterances, st.participant_names⟩ speakerOrder nameOrder =
    merge_results_node st speakerOrder nameOrder := by
  obtain ⟨am, nbr, su, pn⟩ := st
  simp only [merge_results_node, speakerNameScores_dropUnknown]

theorem tagFold_history_length (llm : Reasoner) (pnames : List String)
    (ms : List NameMention) (st : TagState) :
    (ms.foldl (tagStep llm pnames) st).mapping_history.length =
      st.mapping_history.length + ms.length := by
  induction ms generalizing st with
  | nil => rfl
  | cons m ms ih =>
      rw [List.foldl_cons, ih]
      have hstep : (tagStep llm pnames st m).mapping_history.length =
          st.mapping_history.length + 1 := by
        unfold tagStep
        cases llm pnames st.turn st.mapping_history m <;> simp
      rw [hstep]
      simp [List.length_cons]
      omega

/-- C9: if the reasoning call for one mention event errors (a raised
exception or an unparseable response), `name_based_tagging_node` appends
exactly the zero-confidence fallback judgment with speaker `"Unknown"`,
name `"Unknown"` and confidence 0 to the mapping history and continues with
the remaining events from that state; moreover every run of the node
records exactly one history judgment per mention event, so a failed mention
never aborts the run. -/
theorem claim_C9_reasoning_failure_recovery
    (llm : Reasoner) (pnames : List String) (m : NameMention)
    (ms ms0 : List NameMention) (st : TagState) (h0 : List MentionResult)
    (e : String) (h : llm pnames st.turn st.mapping_history m = Except.error e) :
    (m :: ms).foldl (tagStep llm pnames) st =
      ms.foldl (tagStep llm pnames)
        ⟨st.name_results,
         st.mapping_history ++
           [⟨"Unknown", "Unknown", 0, "에러: " ++ e.take 100, st.turn, m.time,
             m.name, some (e.take 200)⟩],
         st.turn + 1⟩ ∧
    (name_based_tagging_node llm pnames ms0 h0).mapping_history.length =
      h0.length + ms0.length := by
  constructor
  · rw [List.foldl_cons]
    unfold tagStep
    rw [h]
    rfl
  · unfold name_based_tagging_node
    by_cases hms : ms0 = []
    · simp [hms]
    · simp only [hms, if_false]
      rw [tagFold_history_length]

/-- C9 witness: a reasoner that always errors, applied to a two-event run:
the hypotheses of `claim_C9_reasoning_failure_recovery` hold at this
concrete input and its conclusion evaluates as stated. -/
theorem claim_C9_reasoning_failure_recovery_witness :
    ((fun _ _ _ _ => Except.error "boom") : Reasoner) ["Kim"] 1 [] ⟨"Kim", [], [], 0, "", ""⟩ =
      Except.error "boom" ∧
    ([⟨"Kim", [], [], 0, "", ""⟩, ⟨"Lee", [], [], 5, "", ""⟩].foldl
        (tagStep (fun _ _ _ _ => Except.error "boom") ["Kim"]) ⟨[], [], 1⟩ =
      [(⟨"Lee", [], [], 5, "", ""⟩ : NameMention)].foldl
        (tagStep (fun _ _ _ _ => Except.error "boom") ["Kim"])
        ⟨[],
         [] ++ [⟨"Unknown", "Unknown", 0, "에러: " ++ "boom".take 100, 1, 0, "Kim",
           some ("boom".take 200)⟩],
         2⟩ ∧
      (name_based_tagging_node (fun _ _ _ _ => Except.error "boom") ["Kim"]
          [⟨"Kim", [], [], 0, "", ""⟩, ⟨"Lee", [], [], 5, "", ""⟩]
          []).mapping_history.length = 0 + 2) :=
  ⟨rfl,
    claim_C9_reasoning_failure_recovery (fun _ _ _ _ => Except.error "boom") ["Kim"]
      ⟨"Kim", [], [], 0, "", ""⟩ [⟨"Lee", [], [], 5, "", ""⟩]
      [⟨"Kim", [], [], 0, "", ""⟩, ⟨"Lee", [], [], 5, "", ""⟩] ⟨[], [], 1⟩ [] "boom" rfl⟩

theorem bestSim_append (l : List (String × Option ℚ)) (x : String × Option ℚ) :
    bestSim (l ++ [x]) =
      match x.2 with
      | none => bestSim l
      | some t => if (bestSim l).2 < t then (some x.1, t) else bestSim l := by
  unfold bestSim
  rw [List.foldl_append]
  rfl

theorem bestSim_nonneg (l : List (String × Option ℚ)) : 0 ≤ (bestSim l).2 := by
  induction l using List.reverseRecOn with
  | nil => simp [bestSim]
  | append_singleton l x ih =>
      rw [bestSim_append]
      cases hx : x.2 with
      | none => exact ih
      | some t =>
          by_cases hlt : (bestSim l).2 < t
          · simpa [hlt] using le_of_lt (lt_of_le_of_lt ih hlt)
          · simpa [hlt] using ih

theorem bestSim_ub (l : List (String × Option ℚ)) :
    ∀ p ∈ l, ∀ t, p.2 = some t → t ≤ (bestSim l).2 := by
  induction l using List.reverseRecOn with
  | nil => simp
  | append_singleton l x ih =>
      intro p hp t ht
      rw [bestSim_append]
      rcases List.mem_append.mp hp with hpl | hpx
      · cases hx : x.2 with
        | none => exact ih p hpl t ht
        | some u =>
            by_cases hlt : (bestSim l).2 < u
            · simp only [hlt, if_true]
              exact le_of_lt (lt_of_le_of_lt (ih p hpl t ht) hlt)
            · simp only [hlt, if_false]
              exact ih p hpl t ht
      · have hpx' : p = x := by simpa using hpx
        subst hpx'
        rw [ht]
        by_cases hlt : (bestSim l).2 < t
        · simp [hlt]
        · simp only [hlt, if_false]
          exact le_of_not_lt hlt

theorem bestSim_eq_some_iff (l : List (String × Option ℚ)) (P : String) (s : ℚ) :
    bestSim l = (some P, s) ↔ firstStrictBest l P s := by
  induction l using List.reverseRecOn with
  | nil =>
      constructor
      · intro h
        simp [bestSim] at h
      · rintro ⟨-, l1, l2, habs, -, -⟩
        exact absurd habs (by simp)
  | append_singleton l x ih =>
      rw [bestSim_append]
      constructor
      · intro h
        cases hx : x.2 with
        | none =>
            rw [hx] at h
            obtain ⟨hs, l1, l2, hsplit, h1, h2⟩ := ih.mp h
            refine ⟨hs, l1, l2 ++ [x], by rw [hsplit]; simp, h1, ?_⟩
            intro q hq t ht
            rcases List.mem_append.mp hq with hql | hqx
            · exact h2 q hql t ht
            · have : q = x := by simpa using hqx
              rw [this, hx] at ht
              cases ht
        | some u =>
            rw [hx] at h
            by_cases hlt : (bestSim l).2 < u
            · simp only [hlt, if_true, Prod.mk.injEq, Option.some.injEq] at h
              obtain ⟨hP, hu⟩ := h
              refine ⟨?_, l, [], ?_, ?_, by simp⟩
              · rw [← hu]
                exact lt_of_le_of_lt (bestSim_nonneg l) hlt
              · have hx' : x = (P, some s) := by
                  cases x
                  simp only at hx hP
                  simp [hx, hP, hu]
                rw [hx']
              · intro q hq t ht
                rw [← hu]
                exact lt_of_le_of_lt (bestSim_ub l q hq t ht) hlt
            · simp only [hlt, if_false] at h
              obtain ⟨hs, l1, l2, hsplit, h1, h2⟩ := ih.mp h
              refine ⟨hs, l1, l2 ++ [x], by rw [hsplit]; simp, h1, ?_⟩
              intro q hq t ht
              rcases List.mem_append.mp hq with hql | hqx
              · exact h2 q hql t ht
              · have hq' : q = x := by simpa using hqx
                rw [hq', hx] at ht
                cases ht
                have hls : (bestSim l).2 = s := by rw [h]
                exact le_trans (le_of_not_lt hlt) (le_of_eq hls)
      · rintro ⟨hs, l1, l2, hsplit, h1, h2⟩
        rcases List.eq_nil_or_concat l2 with hl2 | ⟨l2', y, hl2⟩
        · subst hl2
          have hinj : l = l1 ∧ x = (P, some s) := by
            have hlen : l.length = l1.length := by
              have hh := congrArg List.length hsplit
              simp at hh
              omega
            have := List.append_inj hsplit hlen
            exact ⟨this.1, by simpa using this.2⟩
          obtain ⟨hl, hx⟩ := hinj
          subst hl
          rw [hx]
          have hblt : (bestSim l).2 < s := by
            rcases lt_or_le (bestSim l).2 s with h' | h'
            · exact h'
            · exfalso
              have h0 : (bestSim l).2 = 0 ∨ ∃ p ∈ l, p.2 = some (bestSim l).2 := by
                clear h' hsplit h1 h2 hs ih
                induction l using List.reverseRecOn with
                | nil => exact Or.inl rfl
                | append_singleton l x ih =>
                    rw [bestSim_append]
                    cases hx : x.2 with
                    | none =>
                        rcases ih with h0 | ⟨p, hp, hps⟩
                        · exact Or.inl h0
                        · exact Or.inr ⟨p, List.mem_append_left _ hp, hps⟩
                    | some u =>
                        by_cases hlt : (bestSim l).2 < u
                        · simp only [hlt, if_true]
                          exact Or.inr ⟨x, List.mem_append_right _ (by simp), hx⟩
                        · simp only [hlt, if_false]
                          rcases ih with h0 | ⟨p, hp, hps⟩
                          · exact Or.inl h0
                          · exact Or.inr ⟨p, List.mem_append_left _ hp, hps⟩
              rcases h0 with h0 | ⟨p, hp, hps⟩
              · rw [h0] at h'
                exact absurd hs (not_lt_of_le h')
              · exact absurd (h1 p hp _ hps) (not_lt_of_le h')
          simp [hblt]
        · subst hl2
          have hx' : x = y ∧ l = l1 ++ (P, some s) :: l2' := by
            have heq : l ++ [x] = (l1 ++ (P, some s) :: l2') ++ [y] := by
              rw [hsplit]; simp
            have hlen : l.length = (l1 ++ (P, some s) :: l2').length := by
              have hh := congrArg List.length heq
              simp at hh
              simp
              omega
            have := List.append_inj heq hlen
            exact ⟨by simpa using this.2, this.1⟩
          obtain ⟨hxy, hl⟩ := hx'
          have hbl : bestSim l = (some P, s) := by
            refine ih.mpr ⟨hs, l1, l2', hl, h1, ?_⟩
            intro q hq t ht
            exact h2 q (by simp [hq]) t ht
          cases hxu : x.2 with
          | none => exact hbl
          | some u =>
              have hus : u ≤ s := by
                refine h2 y ?_ u ?_
                · simp
                · rw [← hxy, hxu]
              have : ¬ (bestSim l).2 < u := by
                rw [hbl]
                exact not_lt_of_le hus
              simp only [this, if_false]
              exact hbl

/-- C4 (amended): the profile matcher auto-matches a speaker to profile `P`
exactly when the speaker has at least one utterance, the text-embedding
call succeeded, the voice channel's first strictly-highest best match is
`P` with similarity at least 0.85, and the text channel's first
strictly-highest best match is `P` with similarity strictly above 0.85
(on an exact tie the earliest stored profile wins, and a best match always
has strictly positive similarity). -/
theorem claim_C4_amended_auto_match_criterion (utterances : List String)
    (profiles : List ProfileSim) (apiOk : Bool) (P : String) :
    embeddingMatchSpeaker utterances profiles apiOk = some P ↔
      amendedAutoMatchCriterion profiles P apiOk utterances := by
  unfold embeddingMatchSpeaker amendedAutoMatchCriterion
  by_cases hu : utterances = []
  · simp [hu]
  · by_cases hp : profiles = []
    · subst hp
      simp only [hu, if_false, List.map_nil]
      unfold calculate_voice_similarity calculate_text_similarity
      simp [firstStrictBest]
    · have hv : profiles.map (fun p => (p.name, p.voice)) ≠ [] := by simpa using hp
      have ht : profiles.map (fun p => (p.name, p.text)) ≠ [] := by simpa using hp
      simp only [hu, if_false]
      unfold calculate_voice_similarity calculate_text_similarity
      simp only [hv, ht, if_false]
      cases apiOk with
      | false =>
          simp only [Bool.false_eq_true, if_false]
          constructor
          · intro h
            rw [if_neg] at h
            · cases h
            · rintro ⟨-, habs, -⟩
              norm_num at habs
          · rintro ⟨-, habs, -⟩
            cases habs
      | true =>
          simp only [if_true]
          have hrw : ∀ (Q : List (String × Option ℚ)) (vs : ℚ),
              firstStrictBest Q P vs ↔ bestSim Q = (some P, vs) :=
            fun Q vs => (bestSim_eq_some_iff Q P vs).symm
          simp only [hrw, ne_eq, hu, not_false_eq_true, true_and]
          generalize bestSim (profiles.map (fun p => (p.name, p.voice))) = bv
          generalize bestSim (profiles.map (fun p => (p.name, p.text))) = bt
          obtain ⟨bv1, bv2⟩ := bv
          obtain ⟨bt1, bt2⟩ := bt
          dsimp only
          simp only [Prod.mk.injEq]
          by_cases h1 : (85 : ℚ)/100 ≤ bv2
          · by_cases h2 : (85 : ℚ)/100 < bt2
            · simp only [if_pos h1, if_pos (le_of_lt h2), decide_eq_true_eq, h1, h2,
                true_and, ite_true]
              constructor
              · intro h
                by_cases hc : bv1 = bt1 ∧ ¬bv1 = none
                · rw [if_pos hc] at h
                  refine ⟨⟨bv2, h1, h, rfl⟩, ⟨bt2, h2, ?_, rfl⟩⟩
                  rw [← hc.1]
                  exact h
                · rw [if_neg hc] at h
                  cases h
              · rintro ⟨⟨vs, hvs, hbv1, hbv2⟩, ⟨ts, hts, hbt1, hbt2⟩⟩
                have hc : bv1 = bt1 ∧ ¬bv1 = none := by
                  constructor
                  · rw [hbv1, hbt1]
                  · rw [hbv1]
                    simp
                rw [if_pos hc, hbv1]
            · constructor
              · intro h
                rw [if_neg (fun hc => h2 hc.2.1)] at h
                cases h
              · rintro ⟨-, ⟨ts, hts, -, hbt2⟩⟩
                refine absurd ?_ h2
                rw [hbt2]
                exact hts
          · constructor
            · intro h
              rw [if_neg (fun hc => h1 (of_decide_eq_true hc.1))] at h
              cases h
            · rintro ⟨⟨vs, hvs, -, hbv2⟩, -⟩
              refine absurd ?_ h1
              rw [hbv2]
              exact hvs

/-- C4: counterexample.  A single stored profile "Kim" with voice
similarity 0.9 and text similarity exactly 0.85 satisfies the
specification's auto-match criterion (both channel similarities at least
0.85 and both channels select "Kim" as their strictly-highest best match),
yet `embedding_match_node` does not auto-match the speaker, because it
requires the text similarity to be strictly above 0.85. -/
theorem claim_C4_exact_text_threshold_not_matched :
    specAutoMatchCriterion [⟨"Kim", some (9/10), some (85/100)⟩] "Kim" ∧
    embeddingMatchSpeaker ["hi"] [⟨"Kim", some (9/10), some (85/100)⟩] true = none := by
  refine ⟨⟨⟨9/10, ⟨⟨"Kim", some (9/10), some (85/100)⟩, by simp, rfl, rfl⟩,
      by norm_num, ?_⟩, ⟨85/100, ⟨⟨"Kim", some (9/10), some (85/100)⟩, by simp, rfl, rfl⟩,
      by norm_num, ?_⟩⟩, ?_⟩
  · intro q hq t ht hn
    simp only [List.mem_singleton] at hq
    rw [hq] at hn
    simp at hn
  · intro q hq t ht hn
    simp only [List.mem_singleton] at hq
    rw [hq] at hn
    simp at hn
  · norm_num [embeddingMatchSpeaker, calculate_voice_similarity,
      calculate_text_similarity, bestSim]

theorem foldlMax_mem {α : Type} (lt : α → α → Bool) :
    ∀ (ys : List α) (c : α),
      ys.foldl (fun c y => if lt c y then y else c) c ∈ c :: ys
  | [], c => by simp
  | y :: ys, c => by
      simp only [List.foldl_cons]
      by_cases h : lt c y
      · simp only [h, if_true]
        rcases List.mem_cons.mp (foldlMax_mem lt ys y) with h' | h'
        · simp [h']
        · simp [h']
      · simp only [h, if_false]
        rcases List.mem_cons.mp (foldlMax_mem lt ys c) with h' | h'
        · simp [h']
        · simp [h']

theorem firstMax_mem {α : Type} (lt : α → α → Bool) (l : List α) (x : α)
    (h : firstMax lt l = some x) : x ∈ l := by
  cases l with
  | nil => cases h
  | cons y ys =>
      simp only [firstMax, Option.some.injEq] at h
      rcases List.mem_cons.mp (h ▸ foldlMax_mem lt ys y) with h' | h'
      · simp [h']
      · simp [h']

theorem groupWinner_mem (claimants : List (String × CandInfo)) (w : String × CandInfo)
    (h : groupWinner claimants = some w) : w ∈ claimants := by
  unfold groupWinner at h
  by_cases hl : 1 < claimants.length
  · rw [if_pos hl] at h
    exact firstMax_mem _ _ _ h
  · rw [if_neg hl] at h
    cases claimants with
    | nil => cases h
    | cons c cs =>
        simp only [List.head?] at h
        cases h
        simp

theorem nameGroups_members (mapping : List (String × CandInfo)) :
    ∀ g ∈ nameGroups mapping, ∀ x ∈ g.2, x ∈ mapping := by
  unfold nameGroups
  refine foldl_induction
    (fun (acc : List (String × List (String × CandInfo))) =>
      ∀ g ∈ acc, ∀ x ∈ g.2, x ∈ mapping) _ _ _ (by simp) ?_
  intro acc p hp ih g hg x hx
  by_cases hn : p.2.name ≠ ""
  · rw [if_pos hn] at hg
    unfold groupAppend at hg
    by_cases hc : dictContains acc p.2.name
    · rw [if_pos hc] at hg
      obtain ⟨g0, hg0, hge⟩ := List.mem_map.mp hg
      by_cases hk : g0.1 = p.2.name
      · rw [if_pos hk] at hge
        rw [← hge] at hx
        simp only at hx
        rcases List.mem_append.mp hx with hx' | hx'
        · exact ih g0 hg0 x hx'
        · have : x = p := by simpa using hx'
          exact this ▸ hp
      · rw [if_neg hk] at hge
        exact ih g0 hg0 x (hge ▸ hx)
    · rw [if_neg hc] at hg
      rcases List.mem_append.mp hg with hg' | hg'
      · exact ih g hg' x hx
      · have hge : g = (p.2.name, [p]) := by simpa using hg'
        rw [hge] at hx
        have : x = p := by simpa using hx
        exact this ▸ hp
  · rw [if_neg hn] at hg
    exact ih g hg x hx

theorem dedupMapping_sub (mapping : List (String × CandInfo)) :
    ∀ p ∈ dedupMapping mapping, p ∈ mapping := by
  unfold dedupMapping
  refine foldl_induction (fun (acc : List (String × CandInfo)) =>
    ∀ p ∈ acc, p ∈ mapping) _ _ _ (by simp) ?_
  intro acc g hg ih p hp
  cases hw : groupWinner g.2 with
  | none =>
      rw [hw] at hp
      exact ih p hp
  | some w =>
      rw [hw] at hp
      rcases mem_of_mem_dictInsert hp with hpe | hpm
      · have hwm : w ∈ g.2 := groupWinner_mem g.2 w hw
        have : w = (w.1, w.2) := rfl
        rw [hpe, ← this]
        exact nameGroups_members mapping g hg w hwm
      · exact ih p hpm

theorem initialMapping_method (allSp : List String) (auto : List (String × String))
    (scores : List (String × ScoreAcc)) :
    ∀ p ∈ initialMapping allSp auto scores, p.2.method = none := by
  unfold initialMapping
  refine foldl_induction (fun (acc : List (String × CandInfo)) =>
    ∀ p ∈ acc, p.2.method = none) _ _ _ (by simp) ?_
  intro acc sp hsp ih p hp
  by_cases hc : dictContains auto sp
  · rw [if_pos hc] at hp
    exact ih p hp
  · rw [if_neg hc] at hp
    by_cases hn : ((dictLookup scores sp).getD ⟨[], [], 0⟩).names ≠ []
    · rw [if_pos hn] at hp
      cases hfm : firstMax countAvgLt
          (nameCounts ((dictLookup scores sp).getD ⟨[], [], 0⟩).names
            ((dictLookup scores sp).getD ⟨[], [], 0⟩).confidences) with
      | none =>
          rw [hfm] at hp
          exact ih p hp
      | some bc =>
          rw [hfm] at hp
          rcases mem_of_mem_dictInsert hp with hpe | hpm
          · rw [hpe]
          · exact ih p hpm
    · rw [if_neg hn] at hp
      exact ih p hp

theorem eliminationPass_method (refined : List (String × CandInfo))
    (allSp pn : List String) (su : List (String × List String)) (no : List String)
    (h : ∀ p ∈ refined, p.2.method = none ∨ p.2.method = some "소거법") :
    ∀ p ∈ eliminationPass refined allSp pn su no,
      p.2.method = none ∨ p.2.method = some "소거법" := by
  unfold eliminationPass
  by_cases hc : (allSp.filter (fun s => decide (s ∉ refined.map Prod.fst))).length =
      (no.filter (fun n => decide (n ∈ pn ∧
        n ∉ (refined.map (fun p => p.2.name)).filter (fun n => decide (n ≠ ""))))).length ∧
      0 < (allSp.filter (fun s => decide (s ∉ refined.map Prod.fst))).length
  · rw [if_pos hc]
    have hfold : ∀ (l : List String) (st : List (String × CandInfo) × List String),
        (∀ p ∈ st.1, p.2.method = none ∨ p.2.method = some "소거법") →
        ∀ p ∈ (l.foldl (elimStep su) st).1,
          p.2.method = none ∨ p.2.method = some "소거법" := by
      intro l
      induction l with
      | nil => intro st hst; exact hst
      | cons sp l ih =>
          intro st hst
          rw [List.foldl_cons]
          refine ih _ ?_
          unfold elimStep
          by_cases h3 : 3 ≤ ((dictLookup su sp).getD []).length
          · rw [if_pos h3]
            cases hst2 : st.2 with
            | nil => exact hst
            | cons n rest =>
                intro p hp
                rcases mem_of_mem_dictInsert hp with hpe | hpm
                · rw [hpe]
                  simp
                · exact hst p hpm
          · rw [if_neg h3]
            exact hst
    exact hfold _ _ h
  · rw [if_neg hc]
    exact h

theorem apply_elimination_method_method (mapping : List (String × CandInfo))
    (allSp pn : List String) (su : List (String × List String)) (no : List String)
    (h : ∀ p ∈ mapping, p.2.method = none) :
    ∀ p ∈ apply_elimination_method mapping allSp pn su no,
      p.2.method = none ∨ p.2.method = some "소거법" := by
  unfold apply_elimination_method
  refine eliminationPass_method _ _ _ _ _ ?_
  intro p hp
  exact Or.inl (h p (dedupMapping_sub mapping p hp))

theorem seedFold_reviewCoupled (auto : List (String × String)) :
    ∀ p ∈ auto.foldl
      (fun fm p => dictInsert fm p.1 ⟨p.1, p.2, 1, "embedding", true, false, none⟩) [],
      reviewCoupled p.2 := by
  refine foldl_induction (fun (acc : List (String × MappingEntry)) =>
    ∀ p ∈ acc, reviewCoupled p.2) _ _ _ (by simp) ?_
  intro acc a ha ih p hp
  rcases mem_of_mem_dictInsert hp with hpe | hpm
  · rw [hpe]
    unfold reviewCoupled
    simp only
    constructor
    · intro h
      cases h
    · intro h
      rcases h with h | h | h
      · norm_num at h
      · simp at h
      · simp at h
  · exact ih p hpm

theorem refinedFold_reviewCoupled (refined : List (String × CandInfo))
    (s : List (String × MappingEntry) × List String)
    (hm : ∀ q ∈ refined, q.2.method = none ∨ q.2.method = some "소거법")
    (hs : ∀ p ∈ s.1, reviewCoupled p.2) :
    ∀ p ∈ (refined.foldl refinedEntryStep s).1, reviewCoupled p.2 := by
  induction refined generalizing s with
  | nil => exact hs
  | cons q qs ih =>
      rw [List.foldl_cons]
      refine ih _ (fun r hr => hm r (List.mem_cons_of_mem q hr)) ?_
      unfold refinedEntryStep
      intro p hp
      simp only at hp
      rcases mem_of_mem_dictInsert hp with hpe | hpm
      · rw [hpe]
        unfold reviewCoupled
        simp only [Bool.or_eq_true, decide_eq_true_eq]
        have hq := hm q (by simp)
        constructor
        · rintro (h | h)
          · exact Or.inl h
          · exact Or.inr (Or.inl h)
        · rintro (h | h | h)
          · exact Or.inl h
          · exact Or.inr h
          · exfalso
            rcases hq with hq | hq
            · rw [hq] at h
              simp at h
            · rw [hq] at h
              simp at h
      · exact hs p hpm

theorem greedyFold_reviewCoupled (items : List ScoreItem) (g : GreedyState)
    (hs : ∀ p ∈ g.fm, reviewCoupled p.2) :
    ∀ p ∈ (items.foldl greedyStep g).fm, reviewCoupled p.2 := by
  induction items generalizing g with
  | nil => exact hs
  | cons it its ih =>
      rw [List.foldl_cons]
      refine ih _ ?_
      unfold greedyStep
      by_cases hc : it.name ∉ g.used_in_round ∧ it.name ∈ g.unused_names
      · rw [if_pos hc]
        intro p hp
        simp only at hp
        rcases mem_of_mem_dictInsert hp with hpe | hpm
        · rw [hpe]
          unfold reviewCoupled
          simp only [decide_eq_true_eq]
          constructor
          · intro h
            exact Or.inl h
          · rintro (h | h | h)
            · exact h
            · simp at h
            · simp at h
        · exact hs p hpm
      · rw [if_neg hc]
        exact hs

theorem residFold_reviewCoupled (l : List (String × Nat)) (r : ResidState)
    (hs : ∀ p ∈ r.fm, reviewCoupled p.2) :
    ∀ p ∈ (l.foldl residStep r).fm, reviewCoupled p.2 := by
  induction l generalizing r with
  | nil => exact hs
  | cons q qs ih =>
      rw [List.foldl_cons]
      refine ih _ ?_
      unfold residStep
      cases hr : r.unused_names with
      | nil => exact hs
      | cons n rest =>
          intro p hp
          simp only at hp
          rcases mem_of_mem_dictInsert hp with hpe | hpm
          · rw [hpe]
            unfold reviewCoupled
            simp
          · exact hs p hpm

theorem fillFold_reviewCoupled (l : List String)
    (s : List (String × MappingEntry) × List String)
    (hs : ∀ p ∈ s.1, reviewCoupled p.2) :
    ∀ p ∈ (l.foldl fillStep s).1, reviewCoupled p.2 := by
  induction l generalizing s with
  | nil => exact hs
  | cons sp l ih =>
      rw [List.foldl_cons]
      refine ih _ ?_
      unfold fillStep
      by_cases hc : (dictLookup s.1 sp).isSome
      · rw [if_pos hc]
        exact hs
      · rw [if_neg hc]
        intro p hp
        simp only at hp
        rcases mem_of_mem_dictInsert hp with hpe | hpm
        · rw [hpe]
          unfold reviewCoupled
          simp
        · exact hs p hpm

/-- C5: for every input and every set-iteration order, every entry of the
final mapping produced by `merge_results_node` satisfies the
confidence-review coupling: `needs_review` holds exactly when the entry's
confidence is below 0.7 or its method is elimination (`"소거법"`) or
`"none"` — for embedding, name_based, score_based, elimination and
Unknown-fallback entries alike. -/
theorem claim_C5_confidence_review_coupling (st : MergeInput)
    (speakerOrder nameOrder : List String) :
    ∀ p ∈ (merge_results_node st speakerOrder nameOrder).1, reviewCoupled p.2 := by
  simp only [merge_results_node]
  refine fillFold_reviewCoupled _ _ ?_
  split
  · refine residFold_reviewCoupled _ _ ?_
    refine greedyFold_reviewCoupled _ _ ?_
    refine refinedFold_reviewCoupled _ _
      (apply_elimination_method_method _ _ _ _ _ (initialMapping_method _ _ _)) ?_
    exact seedFold_reviewCoupled st.auto_matched
  · refine refinedFold_reviewCoupled _ _
      (apply_elimination_method_method _ _ _ _ _ (initialMapping_method _ _ _)) ?_
    exact seedFold_reviewCoupled st.auto_matched

/-- C5 witness: the coupling theorem applied to a concrete input whose
final mapping contains an auto-matched entry, and evaluated there. -/
theorem claim_C5_confidence_review_coupling_witness :
    (("S0", (⟨"S0", "Kim", 1, "embedding", true, false, none⟩ : MappingEntry)) ∈
      (merge_results_node ⟨[("S0", "Kim")], [], [("S0", ["a"])], ["Kim"]⟩
        ["S0"] ["Kim"]).1) ∧
    reviewCoupled (⟨"S0", "Kim", 1, "embedding", true, false, none⟩ : MappingEntry) := by
  have hmem : ("S0", (⟨"S0", "Kim", 1, "embedding", true, false, none⟩ : MappingEntry)) ∈
      (merge_results_node ⟨[("S0", "Kim")], [], [("S0", ["a"])], ["Kim"]⟩
        ["S0"] ["Kim"]).1 := by
    norm_num [merge_results_node, apply_elimination_method, eliminationPass,
      dedupMapping, nameGroups, groupWinner, firstMax, confEcLt, countAvgLt, initialMapping,
      speakerNameScores, scoresUpdate, countsUpdate, nameCounts, dictLookup, dictContains,
      dictInsert, groupAppend, refinedEntryStep, collectScoreItem, greedyStep, residStep,
      fillStep, sortLabels, insertLabelAsc, sortScoreDesc, insertScoreDesc, sortCountDesc,
      insertCountDesc, elimStep]
    simp
  exact ⟨hmem,
    claim_C5_confidence_review_coupling ⟨[("S0", "Kim")], [], [("S0", ["a"])], ["Kim"]⟩
      ["S0"] ["Kim"] _ hmem⟩

theorem scoresUpdate_names (m : List (String × ScoreAcc)) (k n : String) (c : ℚ) :
    ∀ q ∈ scoresUpdate m k n c, ∀ x ∈ q.2.names,
      (∃ q' ∈ m, x ∈ q'.2.names) ∨ x = n := by
  unfold scoresUpdate
  by_cases hc : dictContains m k
  · rw [if_pos hc]
    intro q hq x hx
    obtain ⟨q0, hq0, hqe⟩ := List.mem_map.mp hq
    by_cases hk : q0.1 = k
    · rw [if_pos hk] at hqe
      rw [← hqe] at hx
      simp only at hx
      rcases List.mem_append.mp hx with hx' | hx'
      · exact Or.inl ⟨q0, hq0, hx'⟩
      · exact Or.inr (by simpa using hx')
    · rw [if_neg hk] at hqe
      exact Or.inl ⟨q0, hq0, hqe ▸ hx⟩
  · rw [if_neg hc]
    intro q hq x hx
    rcases List.mem_append.mp hq with hq' | hq'
    · exact Or.inl ⟨q, hq', hx⟩
    · have : q = (k, ⟨[n], [c], 1⟩) := by simpa using hq'
      rw [this] at hx
      exact Or.inr (by simpa using hx)

theorem speakerNameScores_names (nbr : List (String × List MentionResult)) :
    ∀ q ∈ speakerNameScores nbr, ∀ x ∈ q.2.names, x ∈ mentionNames nbr := by
  unfold speakerNameScores
  refine foldl_induction (fun (acc : List (String × ScoreAcc)) =>
    ∀ q ∈ acc, ∀ x ∈ q.2.names, x ∈ mentionNames nbr) _ _ _ (by simp) ?_
  intro acc p hp ih
  refine foldl_induction (fun (acc : List (String × ScoreAcc)) =>
    ∀ q ∈ acc, ∀ x ∈ q.2.names, x ∈ mentionNames nbr) _ _ _ ih ?_
  intro acc2 r hr ih2 q hq x hx
  by_cases hcond : r.speaker ≠ "" ∧ r.speaker ≠ "Unknown"
  · rw [if_pos hcond] at hq
    rcases scoresUpdate_names acc2 r.speaker r.name r.confidence q hq x hx with
      ⟨q', hq', hx'⟩ | hxe
    · exact ih2 q' hq' x hx'
    · rw [hxe]
      unfold mentionNames
      rw [List.mem_flatten]
      refine ⟨p.2.map (fun r => r.name), ?_, ?_⟩
      · exact List.mem_map_of_mem _ hp
      · exact List.mem_map_of_mem _ hr
  · rw [if_neg hcond] at hq
    exact ih2 q hq x hx

theorem countsUpdate_keys (m : List (String × CountAcc)) (k : String) (c : ℚ) :
    ∀ q ∈ countsUpdate m k c, q.1 = k ∨ q.1 ∈ m.map Prod.fst := by
  unfold countsUpdate
  by_cases hc : dictContains m k
  · rw [if_pos hc]
    intro q hq
    obtain ⟨q0, hq0, hqe⟩ := List.mem_map.mp hq
    by_cases hk : q0.1 = k
    · rw [if_pos hk] at hqe
      refine Or.inl ?_
      rw [← hqe]
      simpa using hk
    · rw [if_neg hk] at hqe
      exact Or.inr (hqe ▸ List.mem_map_of_mem Prod.fst hq0)
  · rw [if_neg hc]
    intro q hq
    rcases List.mem_append.mp hq with hq' | hq'
    · exact Or.inr (List.mem_map_of_mem Prod.fst hq')
    · have : q = (k, ⟨1, c⟩) := by simpa using hq'
      exact Or.inl (by rw [this])

theorem nameCounts_keys (names : List String) (confs : List ℚ) :
    ∀ q ∈ nameCounts names confs, q.1 ∈ names := by
  unfold nameCounts
  refine foldl_induction (fun (acc : List (String × CountAcc)) =>
    ∀ q ∈ acc, q.1 ∈ names) _ _ _ (by simp) ?_
  intro acc p hp ih q hq
  rcases countsUpdate_keys acc p.1 p.2 q hq with hqe | hqm
  · rw [hqe]
    exact (List.of_mem_zip hp).1
  · obtain ⟨q', hq', hqe'⟩ := List.mem_map.mp hqm
    exact hqe' ▸ ih q' hq'

theorem initialMapping_names (allSp : List String) (auto : List (String × String))
    (scores : List (String × ScoreAcc)) :
    ∀ p ∈ initialMapping allSp auto scores, ∃ q ∈ scores, p.2.name ∈ q.2.names := by
  unfold initialMapping
  refine foldl_induction (fun (acc : List (String × CandInfo)) =>
    ∀ p ∈ acc, ∃ q ∈ scores, p.2.name ∈ q.2.names) _ _ _ (by simp) ?_
  intro acc sp hsp ih p hp
  by_cases hc : dictContains auto sp
  · rw [if_pos hc] at hp
    exact ih p hp
  · rw [if_neg hc] at hp
    by_cases hn : ((dictLookup scores sp).getD ⟨[], [], 0⟩).names ≠ []
    · rw [if_pos hn] at hp
      cases hfm : firstMax countAvgLt
          (nameCounts ((dictLookup scores sp).getD ⟨[], [], 0⟩).names
            ((dictLookup scores sp).getD ⟨[], [], 0⟩).confidences) with
      | none =>
          rw [hfm] at hp
          exact ih p hp
      | some bc =>
          rw [hfm] at hp
          rcases mem_of_mem_dictInsert hp with hpe | hpm
          · cases hlk : dictLookup scores sp with
            | none =>
                exfalso
                rw [hlk] at hn
                simp at hn
            | some a =>
                refine ⟨(sp, a), dictLookup_eq_some_mem scores sp a hlk, ?_⟩
                have hbc : bc.1 ∈ ((dictLookup scores sp).getD ⟨[], [], 0⟩).names :=
                  nameCounts_keys _ _ bc (firstMax_mem _ _ _ hfm)
                rw [hlk] at hbc
                rw [hpe]
                simpa using hbc
          · exact ih p hpm
    · rw [if_neg hn] at hp
      exact ih p hp

theorem eliminationPass_names (refined : List (String × CandInfo))
    (allSp pn : List String) (su : List (String × List String)) (no : List String) :
    ∀ p ∈ eliminationPass refined allSp pn su no,
      p ∈ refined ∨ p.2.name ∈ pn := by
  unfold eliminationPass
  by_cases hc : (allSp.filter (fun s => decide (s ∉ refined.map Prod.fst))).length =
      (no.filter (fun n => decide (n ∈ pn ∧
        n ∉ (refined.map (fun p => p.2.name)).filter (fun n => decide (n ≠ ""))))).length ∧
      0 < (allSp.filter (fun s => decide (s ∉ refined.map Prod.fst))).length
  · rw [if_pos hc]
    have hfold : ∀ (l : List String) (st : List (String × CandInfo) × List String),
        (∀ p ∈ st.1, p ∈ refined ∨ p.2.name ∈ pn) → (∀ n ∈ st.2, n ∈ pn) →
        ∀ p ∈ (l.foldl (elimStep su) st).1, p ∈ refined ∨ p.2.name ∈ pn := by
      intro l
      induction l with
      | nil => intro st hst _; exact hst
      | cons sp l ih =>
          intro st hst hu
          rw [List.foldl_cons]
          unfold elimStep
          by_cases h3 : 3 ≤ ((dictLookup su sp).getD []).length
          · rw [if_pos h3]
            cases hst2 : st.2 with
            | nil => exact ih st hst hu
            | cons n rest =>
                refine ih _ ?_ ?_
                · intro p hp
                  simp only at hp
                  rcases mem_of_mem_dictInsert hp with hpe | hpm
                  · refine Or.inr ?_
                    rw [hpe]
                    exact hu n (by rw [hst2]; simp)
                  · exact hst p hpm
                · intro x hx
                  exact hu x (by rw [hst2]; simp [hx])
          · rw [if_neg h3]
            exact ih st hst hu
    refine hfold _ _ (fun p hp => Or.inl hp) ?_
    intro n hn
    have := List.of_mem_filter hn
    simp only [decide_eq_true_eq] at this
    exact this.1
  · rw [if_neg hc]
    exact fun p hp => Or.inl hp

theorem apply_elimination_names (mapping : List (String × CandInfo))
    (allSp pn : List String) (su : List (String × List String)) (no : List String) :
    ∀ p ∈ apply_elimination_method mapping allSp pn su no,
      p ∈ mapping ∨ p.2.name ∈ pn := by
  unfold apply_elimination_method
  intro p hp
  rcases eliminationPass_names _ _ _ _ _ p hp with hpl | hpn
  · exact Or.inl (dedupMapping_sub _ p hpl)
  · exact Or.inr hpn

theorem seedFold_names (N : String → Prop) (auto : List (String × String))
    (h : ∀ v ∈ auto.map Prod.snd, N v) :
    ∀ p ∈ auto.foldl
      (fun (fm : List (String × MappingEntry)) p =>
        dictInsert fm p.1 ⟨p.1, p.2, 1, "embedding", true, false, none⟩) [],
      N p.2.name := by
  refine foldl_induction (fun (acc : List (String × MappingEntry)) =>
    ∀ p ∈ acc, N p.2.name) _ _ _ (by simp) ?_
  intro acc a ha ih p hp
  rcases mem_of_mem_dictInsert hp with hpe | hpm
  · rw [hpe]
    exact h a.2 (List.mem_map_of_mem Prod.snd ha)
  · exact ih p hpm

theorem refinedFold_names (N : String → Prop) (refined : List (String × CandInfo))
    (s : List (String × MappingEntry) × List String)
    (hm : ∀ q ∈ refined, N q.2.name) (hs : ∀ p ∈ s.1, N p.2.name) :
    ∀ p ∈ (refined.foldl refinedEntryStep s).1, N p.2.name := by
  induction refined generalizing s with
  | nil => exact hs
  | cons q qs ih =>
      rw [List.foldl_cons]
      refine ih _ (fun r hr => hm r (List.mem_cons_of_mem q hr)) ?_
      unfold refinedEntryStep
      intro p hp
      simp only at hp
      rcases mem_of_mem_dictInsert hp with hpe | hpm
      · rw [hpe]
        exact hm q (by simp)
      · exact hs p hpm

theorem greedyFold_names (N : String → Prop) (items : List ScoreItem)
    (g : GreedyState) (hs : ∀ p ∈ g.fm, N p.2.name)
    (hu : ∀ n ∈ g.unused_names, N n) :
    (∀ p ∈ (items.foldl greedyStep g).fm, N p.2.name) ∧
      (∀ n ∈ (items.foldl greedyStep g).unused_names, N n) := by
  induction items generalizing g with
  | nil => exact ⟨hs, hu⟩
  | cons it its ih =>
      rw [List.foldl_cons]
      unfold greedyStep
      by_cases hc : it.name ∉ g.used_in_round ∧ it.name ∈ g.unused_names
      · rw [if_pos hc]
        refine ih _ ?_ ?_
        · intro p hp
          simp only at hp
          rcases mem_of_mem_dictInsert hp with hpe | hpm
          · rw [hpe]
            exact hu it.name hc.2
          · exact hs p hpm
        · intro n hn
          simp only at hn
          exact hu n (List.mem_of_mem_erase hn)
      · rw [if_neg hc]
        exact ih g hs hu

theorem residFold_names (N : String → Prop) (l : List (String × Nat))
    (r : ResidState) (hs : ∀ p ∈ r.fm, N p.2.name)
    (hu : ∀ n ∈ r.unused_names, N n) :
    ∀ p ∈ (l.foldl residStep r).fm, N p.2.name := by
  induction l generalizing r with
  | nil => exact hs
  | cons q qs ih =>
      rw [List.foldl_cons]
      unfold residStep
      cases hr : r.unused_names with
      | nil => exact ih r hs hu
      | cons n rest =>
          refine ih _ ?_ ?_
          · intro p hp
            simp only at hp
            rcases mem_of_mem_dictInsert hp with hpe | hpm
            · rw [hpe]
              exact hu n (by rw [hr]; simp)
            · exact hs p hpm
          · intro x hx
            simp only at hx
            exact hu x (by rw [hr]; simp [hx])

theorem fillFold_names (N : String → Prop) (hU : N "Unknown") (l : List String)
    (s : List (String × MappingEntry) × List String)
    (hs : ∀ p ∈ s.1, N p.2.name) :
    ∀ p ∈ (l.foldl fillStep s).1, N p.2.name := by
  induction l generalizing s with
  | nil => exact hs
  | cons sp l ih =>
      rw [List.foldl_cons]
      refine ih _ ?_
      unfold fillStep
      by_cases hc : (dictLookup s.1 sp).isSome
      · rw [if_pos hc]
        exact hs
      · rw [if_neg hc]
        intro p hp
        simp only at hp
        rcases mem_of_mem_dictInsert hp with hpe | hpm
        · rw [hpe]
          exact hU
        · exact hs p hpm

/-- C7 (amended): every name appearing in the final mapping is the sentinel
`"Unknown"`, a name from the authoritative participant list, a profile name
delivered by the auto-match stage, or a name occurring in some mention
judgment.  The elimination and score-based stages only ever assign
participant names, but the embedding and name_based stages pass profile
names and reasoner-returned names through without checking them against
the participant list. -/
theorem claim_C7_amended_name_provenance (st : MergeInput)
    (speakerOrder nameOrder : List String) :
    ∀ p ∈ (merge_results_node st speakerOrder nameOrder).1,
      p.2.name = "Unknown" ∨ p.2.name ∈ st.participant_names ∨
      p.2.name ∈ st.auto_matched.map Prod.snd ∨
      p.2.name ∈ mentionNames st.name_based_results := by
  simp only [merge_results_node]
  have hm : ∀ q ∈ apply_elimination_method
      (initialMapping
        (speakerOrder.filter (fun s => decide (s ∈ st.speaker_utterances.map Prod.fst)))
        st.auto_matched (speakerNameScores st.name_based_results))
      (speakerOrder.filter (fun s => decide (s ∈ st.speaker_utterances.map Prod.fst)))
      st.participant_names st.speaker_utterances nameOrder,
      q.2.name = "Unknown" ∨ q.2.name ∈ st.participant_names ∨
      q.2.name ∈ st.auto_matched.map Prod.snd ∨
      q.2.name ∈ mentionNames st.name_based_results := by
    intro q hq
    rcases apply_elimination_names _ _ _ _ _ q hq with hql | hqn
    · obtain ⟨sc, hsc, hname⟩ := initialMapping_names _ _ _ q hql
      exact Or.inr (Or.inr (Or.inr (speakerNameScores_names _ sc hsc _ hname)))
    · exact Or.inr (Or.inl hqn)
  refine fillFold_names
    (fun n => n = "Unknown" ∨ n ∈ st.participant_names ∨
      n ∈ st.auto_matched.map Prod.snd ∨ n ∈ mentionNames st.name_based_results)
    (Or.inl rfl) _ _ ?_
  split
  · dsimp only
    refine residFold_names
      (fun n => n = "Unknown" ∨ n ∈ st.participant_names ∨
        n ∈ st.auto_matched.map Prod.snd ∨ n ∈ mentionNames st.name_based_results)
      _ _ ?_ ?_
    · refine (greedyFold_names
        (fun n => n = "Unknown" ∨ n ∈ st.participant_names ∨
          n ∈ st.auto_matched.map Prod.snd ∨ n ∈ mentionNames st.name_based_results)
        _ _ ?_ ?_).1
      · refine refinedFold_names
          (fun n => n = "Unknown" ∨ n ∈ st.participant_names ∨
            n ∈ st.auto_matched.map Prod.snd ∨ n ∈ mentionNames st.name_based_results)
          _ _ hm ?_
        dsimp only
        refine seedFold_names
          (fun n => n = "Unknown" ∨ n ∈ st.participant_names ∨
            n ∈ st.auto_matched.map Prod.snd ∨ n ∈ mentionNames st.name_based_results)
          st.auto_matched ?_
        intro v hv
        exact Or.inr (Or.inr (Or.inl hv))
      · intro n hn
        exact Or.inr (Or.inl (List.mem_of_mem_filter hn))
    · refine (greedyFold_names
        (fun n => n = "Unknown" ∨ n ∈ st.participant_names ∨
          n ∈ st.auto_matched.map Prod.snd ∨ n ∈ mentionNames st.name_based_results)
        _ _ ?_ ?_).2
      · refine refinedFold_names
          (fun n => n = "Unknown" ∨ n ∈ st.participant_names ∨
            n ∈ st.auto_matched.map Prod.snd ∨ n ∈ mentionNames st.name_based_results)
          _ _ hm ?_
        dsimp only
        refine seedFold_names
          (fun n => n = "Unknown" ∨ n ∈ st.participant_names ∨
            n ∈ st.auto_matched.map Prod.snd ∨ n ∈ mentionNames st.name_based_results)
          st.auto_matched ?_
        intro v hv
        exact Or.inr (Or.inr (Or.inl hv))
      · intro n hn
        exact Or.inr (Or.inl (List.mem_of_mem_filter hn))
  · refine refinedFold_names
      (fun n => n = "Unknown" ∨ n ∈ st.participant_names ∨
        n ∈ st.auto_matched.map Prod.snd ∨ n ∈ mentionNames st.name_based_results)
      _ _ hm ?_
    dsimp only
    refine seedFold_names
      (fun n => n = "Unknown" ∨ n ∈ st.participant_names ∨
        n ∈ st.auto_matched.map Prod.snd ∨ n ∈ mentionNames st.name_based_results)
      st.auto_matched ?_
    intro v hv
    exact Or.inr (Or.inr (Or.inl hv))

/-- C7: counterexample.  A stored profile named "Park" auto-matches
SPEAKER S0 although the authoritative participant list is only ["Kim"]:
the final mapping assigns "Park", a name outside the authoritative set and
not the sentinel, so the resolver does not restrict names to the
participant list. -/
theorem claim_C7_name_outside_participants :
    dictLookup (merge_results_node ⟨[("S0", "Park")], [], [("S0", ["a"])], ["Kim"]⟩
      ["S0"] ["Kim"]).1 "S0" =
      some ⟨"S0", "Park", 1, "embedding", true, false, none⟩ ∧
    "Park" ∉ (["Kim"] : List String) ∧ ("Park" : String) ≠ "Unknown" := by
  refine ⟨?_, by simp, by simp⟩
  norm_num [merge_results_node, apply_elimination_method, eliminationPass,
    dedupMapping, nameGroups, groupWinner, firstMax, confEcLt, countAvgLt, initialMapping,
    speakerNameScores, scoresUpdate, countsUpdate, nameCounts, dictLookup, dictContains,
    dictInsert, groupAppend, refinedEntryStep, collectScoreItem, greedyStep, residStep,
    fillStep, sortLabels, insertLabelAsc, sortScoreDesc, insertScoreDesc, sortCountDesc,
    insertCountDesc, elimStep]

/-- C7 witness: the provenance theorem applied to the profile-name input
above — "Park" is accounted for as an auto-matched profile name. -/
theorem claim_C7_amended_name_provenance_witness :
    (("S0", (⟨"S0", "Park", 1, "embedding", true, false, none⟩ : MappingEntry)) ∈
      (merge_results_node ⟨[("S0", "Park")], [], [("S0", ["a"])], ["Kim"]⟩
        ["S0"] ["Kim"]).1) ∧
    (("Park" : String) = "Unknown" ∨ "Park" ∈ (["Kim"] : List String) ∨
      "Park" ∈ List.map Prod.snd [("S0", "Park")] ∨
      "Park" ∈ mentionNames []) := by
  have hmem : ("S0", (⟨"S0", "Park", 1, "embedding", true, false, none⟩ : MappingEntry)) ∈
      (merge_results_node ⟨[("S0", "Park")], [], [("S0", ["a"])], ["Kim"]⟩
        ["S0"] ["Kim"]).1 := by
    norm_num [merge_results_node, apply_elimination_method, eliminationPass,
      dedupMapping, nameGroups, groupWinner, firstMax, confEcLt, countAvgLt, initialMapping,
      speakerNameScores, scoresUpdate, countsUpdate, nameCounts, dictLookup, dictContains,
      dictInsert, groupAppend, refinedEntryStep, collectScoreItem, greedyStep, residStep,
      fillStep, sortLabels, insertLabelAsc, sortScoreDesc, insertScoreDesc, sortCountDesc,
      insertCountDesc, elimStep]
    simp
  exact ⟨hmem,
    claim_C7_amended_name_provenance ⟨[("S0", "Park")], [], [("S0", ["a"])], ["Kim"]⟩
      ["S0"] ["Kim"] _ hmem⟩

theorem seedFold_keys_nodup (auto : List (String × String)) :
    (((auto.foldl
      (fun (fm : List (String × MappingEntry)) p =>
        dictInsert fm p.1 ⟨p.1, p.2, 1, "embedding", true, false, none⟩) [])).map
      Prod.fst).Nodup := by
  refine foldl_induction (fun (acc : List (String × MappingEntry)) =>
    (acc.map Prod.fst).Nodup) _ _ _ (by simp) ?_
  intro acc a ha ih
  exact keys_nodup_dictInsert _ _ _ ih

theorem refinedFold_keys_nodup (refined : List (String × CandInfo))
    (s : List (String × MappingEntry) × List String)
    (hs : (s.1.map Prod.fst).Nodup) :
    (((refined.foldl refinedEntryStep s).1.map Prod.fst)).Nodup := by
  induction refined generalizing s with
  | nil => exact hs
  | cons q qs ih =>
      rw [List.foldl_cons]
      refine ih _ ?_
      unfold refinedEntryStep
      exact keys_nodup_dictInsert _ _ _ hs

theorem greedyFold_keys_nodup (items : List ScoreItem) (g : GreedyState)
    (hs : (g.fm.map Prod.fst).Nodup) :
    (((items.foldl greedyStep g).fm.map Prod.fst)).Nodup := by
  induction items generalizing g with
  | nil => exact hs
  | cons it its ih =>
      rw [List.foldl_cons]
      refine ih _ ?_
      unfold greedyStep
      by_cases hc : it.name ∉ g.used_in_round ∧ it.name ∈ g.unused_names
      · rw [if_pos hc]
        exact keys_nodup_dictInsert _ _ _ hs
      · rw [if_neg hc]
        exact hs

theorem residFold_keys_nodup (l : List (String × Nat)) (r : ResidState)
    (hs : (r.fm.map Prod.fst).Nodup) :
    (((l.foldl residStep r).fm.map Prod.fst)).Nodup := by
  induction l generalizing r with
  | nil => exact hs
  | cons q qs ih =>
      rw [List.foldl_cons]
      refine ih _ ?_
      unfold residStep
      cases hr : r.unused_names with
      | nil => exact hs
      | cons n rest => exact keys_nodup_dictInsert _ _ _ hs

theorem fillFold_keys_nodup (l : List String)
    (s : List (String × MappingEntry) × List String)
    (hs : (s.1.map Prod.fst).Nodup) :
    (((l.foldl fillStep s).1.map Prod.fst)).Nodup := by
  induction l generalizing s with
  | nil => exact hs
  | cons sp l ih =>
      rw [List.foldl_cons]
      refine ih _ ?_
      unfold fillStep
      by_cases hc : (dictLookup s.1 sp).isSome
      · rw [if_pos hc]
        exact hs
      · rw [if_neg hc]
        exact keys_nodup_dictInsert _ _ _ hs

theorem fillFold_keys_mono (l : List String)
    (s : List (String × MappingEntry) × List String) (k : String)
    (hk : k ∈ s.1.map Prod.fst) :
    k ∈ (l.foldl fillStep s).1.map Prod.fst := by
  induction l generalizing s with
  | nil => exact hk
  | cons sp l ih =>
      rw [List.foldl_cons]
      refine ih _ ?_
      unfold fillStep
      by_cases hc : (dictLookup s.1 sp).isSome
      · rw [if_pos hc]
        exact hk
      · rw [if_neg hc]
        rw [keys_dictInsert]
        by_cases hcc : dictContains s.1 sp
        · simpa [hcc] using hk
        · simp only [hcc, if_false, Bool.false_eq_true]
          exact List.mem_append_left _ hk

theorem fillFold_mem (l : List String)
    (s : List (String × MappingEntry) × List String) (sp : String) (hsp : sp ∈ l) :
    sp ∈ (l.foldl fillStep s).1.map Prod.fst := by
  induction l generalizing s with
  | nil => cases hsp
  | cons x l ih =>
      rw [List.foldl_cons]
      rcases List.mem_cons.mp hsp with hspe | hspm
      · subst hspe
        refine fillFold_keys_mono _ _ sp ?_
        unfold fillStep
        by_cases hc : (dictLookup s.1 sp).isSome
        · rw [if_pos hc]
          exact (dictContains_iff_mem_keys s.1 sp).mp hc
        · rw [if_neg hc]
          rw [keys_dictInsert]
          by_cases hcc : dictContains s.1 sp
          · exact absurd hcc (by simpa [dictContains] using hc)
          · simp [hcc]
      · exact ih _ hspm

/-- C2: completeness of the merger.  For every input and set-iteration
order, every speaker label observed in the meeting (a key of
`speaker_utterances`, provided the enumeration of the `all_speakers` set
covers it, as a Python set iteration always does) owns exactly one entry of
the final mapping: the keys of `final_mappings` are duplicate-free and the
Unknown-fallback loop guarantees no observed label is omitted. -/
theorem claim_C2_completeness (st : MergeInput) (speakerOrder nameOrder : List String)
    (s : String) (hs1 : s ∈ st.speaker_utterances.map Prod.fst)
    (hs2 : s ∈ speakerOrder) :
    (((merge_results_node st speakerOrder nameOrder).1.map Prod.fst)).count s = 1 := by
  have hnodup : (((merge_results_node st speakerOrder nameOrder).1.map Prod.fst)).Nodup := by
    simp only [merge_results_node]
    refine fillFold_keys_nodup _ _ ?_
    split
    · dsimp only
      refine residFold_keys_nodup _ _ ?_
      refine greedyFold_keys_nodup _ _ ?_
      refine refinedFold_keys_nodup _ _ ?_
      exact seedFold_keys_nodup st.auto_matched
    · refine refinedFold_keys_nodup _ _ ?_
      exact seedFold_keys_nodup st.auto_matched
  have hmem : s ∈ ((merge_results_node st speakerOrder nameOrder).1.map Prod.fst) := by
    simp only [merge_results_node]
    refine fillFold_mem _ _ s ?_
    rw [List.mem_filter]
    exact ⟨hs2, by simpa using hs1⟩
  exact List.count_eq_one_of_mem hnodup hmem

/-- C2 witness: the completeness theorem evaluated on a concrete two-speaker
input, for the speaker that falls through to the Unknown fallback. -/
theorem claim_C2_completeness_witness :
    ("S1" ∈ List.map Prod.fst [("S0", ["a"]), ("S1", ["b"])] ∧
      "S1" ∈ ["S0", "S1"]) ∧
    (((merge_results_node ⟨[], [], [("S0", ["a"]), ("S1", ["b"])], []⟩
      ["S0", "S1"] []).1.map Prod.fst)).count "S1" = 1 :=
  ⟨⟨by simp, by simp⟩,
    claim_C2_completeness ⟨[], [], [("S0", ["a"]), ("S1", ["b"])], []⟩
      ["S0", "S1"] [] "S1" (by simp) (by simp)⟩

theorem dictLookup_mapGroup_self {α : Type} (m : List (String × List α))
    (k : String) (v : α) :
    dictLookup (m.map (fun p => if p.1 = k then (p.1, p.2 ++ [v]) else p)) k =
      match dictLookup m k with
      | some g => some (g ++ [v])
      | none => none := by
  induction m with
  | nil => simp [dictLookup]
  | cons p rest ih =>
      simp only [List.map_cons]
      by_cases hp : p.1 = k
      · rw [if_pos hp]
        simp [dictLookup, hp]
      · rw [if_neg hp]
        simp only [dictLookup, hp, if_false]
        exact ih

theorem dictLookup_mapGroup_ne {α : Type} (m : List (String × List α))
    (k k' : String) (v : α) (h : k' ≠ k) :
    dictLookup (m.map (fun p => if p.1 = k then (p.1, p.2 ++ [v]) else p)) k' =
      dictLookup m k' := by
  induction m with
  | nil => simp
  | cons p rest ih =>
      simp only [List.map_cons]
      by_cases hp : p.1 = k
      · rw [if_pos hp]
        have h2 : ¬(p.1 = k') := by rw [hp]; exact fun hc => h hc.symm
        simp only [dictLookup, h2, if_false]
        exact ih
      · rw [if_neg hp]
        simp only [dictLookup]
        by_cases hp' : p.1 = k'
        · simp [hp']
        · simp only [hp', if_false]
          exact ih

theorem dictLookup_groupAppend_self {α : Type} (m : List (String × List α))
    (k : String) (v : α) :
    dictLookup (groupAppend m k v) k = some ((dictLookup m k).getD [] ++ [v]) := by
  unfold groupAppend dictContains
  by_cases h : (dictLookup m k).isSome
  · rw [if_pos h]
    rw [dictLookup_mapGroup_self]
    cases hx : dictLookup m k with
    | none => simp [hx] at h
    | some g => simp
  · rw [if_neg h]
    have hn : dictLookup m k = none := by
      cases hx : dictLookup m k with
      | none => rfl
      | some w => simp [hx] at h
    rw [dictLookup_append_none m _ k hn, hn]
    simp [dictLookup]

theorem dictLookup_groupAppend_ne {α : Type} (m : List (String × List α))
    (k k' : String) (v : α) (h : k' ≠ k) :
    dictLookup (groupAppend m k v) k' = dictLookup m k' := by
  unfold groupAppend dictContains
  by_cases hc : (dictLookup m k).isSome
  · rw [if_pos hc]
    exact dictLookup_mapGroup_ne m k k' v h
  · rw [if_neg hc]
    cases hx : dictLookup m k' with
    | none =>
        rw [dictLookup_append_none m _ k' hx]
        simp [dictLookup, show ¬(k = k') from fun hc' => h hc'.symm]
    | some w => exact dictLookup_append_some m _ k' w hx

theorem keys_groupAppend {α : Type} (m : List (String × List α)) (k : String)
    (v : α) :
    (groupAppend m k v).map Prod.fst =
      if dictContains m k then m.map Prod.fst else m.map Prod.fst ++ [k] := by
  unfold groupAppend
  by_cases h : dictContains m k
  · simp only [h, if_true, List.map_map]
    refine List.map_congr_left (fun p _ => ?_)
    by_cases hp : p.1 = k
    · simp [Function.comp, hp]
    · simp [Function.comp, hp]
  · simp [h]

theorem keys_nodup_groupAppend {α : Type} (m : List (String × List α)) (k : String)
    (v : α) (h : (m.map Prod.fst).Nodup) :
    ((groupAppend m k v).map Prod.fst).Nodup := by
  rw [keys_groupAppend]
  by_cases hc : dictContains m k
  · simpa [hc] using h
  · have hk : k ∉ m.map Prod.fst := by
      intro hmem
      exact hc ((dictContains_iff_mem_keys m k).mpr hmem)
    have hnd : (m.map Prod.fst ++ [k]).Nodup := by
      rw [List.nodup_append]
      refine ⟨h, List.nodup_singleton k, ?_⟩
      intro a ha hb
      simp only [List.mem_singleton] at hb
      exact hk (hb ▸ ha)
    simpa [hc] using hnd

theorem groupAppend_keys_mem {α : Type} (m : List (String × List α)) (k : String)
    (v : α) : ∀ g ∈ groupAppend m k v, g.1 = k ∨ g.1 ∈ m.map Prod.fst := by
  unfold groupAppend
  by_cases hc : dictContains m k
  · rw [if_pos hc]
    intro g hg
    obtain ⟨g0, hg0, hge⟩ := List.mem_map.mp hg
    by_cases hk : g0.1 = k
    · rw [if_pos hk] at hge
      refine Or.inl ?_
      rw [← hge]
      simpa using hk
    · rw [if_neg hk] at hge
      exact Or.inr (hge ▸ List.mem_map_of_mem Prod.fst hg0)
  · rw [if_neg hc]
    intro g hg
    rcases List.mem_append.mp hg with hg' | hg'
    · exact Or.inr (List.mem_map_of_mem Prod.fst hg')
    · have : g = (k, [v]) := by simpa using hg'
      exact Or.inl (by rw [this])

theorem nameGroups_keys_nodup (mapping : List (String × CandInfo)) :
    ((nameGroups mapping).map Prod.fst).Nodup := by
  unfold nameGroups
  refine foldl_induction (fun (acc : List (String × List (String × CandInfo))) =>
    (acc.map Prod.fst).Nodup) _ _ _ (by simp) ?_
  intro acc p hp ih
  by_cases hpn : p.2.name ≠ ""
  · rw [if_pos hpn]
    exact keys_nodup_groupAppend _ _ _ ih
  · rw [if_neg hpn]
    exact ih

theorem nameGroups_keys_ne_empty (mapping : List (String × CandInfo)) :
    ∀ g ∈ nameGroups mapping, g.1 ≠ "" := by
  unfold nameGroups
  refine foldl_induction (fun (acc : List (String × List (String × CandInfo))) =>
    ∀ g ∈ acc, g.1 ≠ "") _ _ _ (by simp) ?_
  intro acc p hp ih g hg
  by_cases hpn : p.2.name ≠ ""
  · rw [if_pos hpn] at hg
    rcases groupAppend_keys_mem acc p.2.name p g hg with hge | hgm
    · rw [hge]
      exact hpn
    · obtain ⟨g0, hg0, hge⟩ := List.mem_map.mp hgm
      exact hge ▸ ih g0 hg0
  · rw [if_neg hpn] at hg
    exact ih g hg

theorem dictLookup_of_mem_nodup {α : Type} (m : List (String × α))
    (p : String × α) (hn : (m.map Prod.fst).Nodup) (hp : p ∈ m) :
    dictLookup m p.1 = some p.2 := by
  induction m with
  | nil => cases hp
  | cons q rest ih =>
      rcases List.mem_cons.mp hp with hpe | hpm
      · rw [hpe]
        simp [dictLookup]
      · have hq : ¬(q.1 = p.1) := by
          intro hqe
          simp only [List.map_cons, List.nodup_cons] at hn
          exact hn.1 (hqe ▸ List.mem_map_of_mem Prod.fst hpm)
        simp only [dictLookup, hq, if_false]
        refine ih ?_ hpm
        simp only [List.map_cons, List.nodup_cons] at hn
        exact hn.2

theorem mem_eq_of_keys_nodup {α : Type} (m : List (String × α))
    (p q : String × α) (hn : (m.map Prod.fst).Nodup) (hp : p ∈ m) (hq : q ∈ m)
    (hk : p.1 = q.1) : p = q := by
  have h1 := dictLookup_of_mem_nodup m p hn hp
  have h2 := dictLookup_of_mem_nodup m q hn hq
  rw [hk, h2] at h1
  have : p.2 = q.2 := by simpa using h1.symm
  cases p
  cases q
  simp only at hk this
  simp [hk, this]

theorem nameGroupsFold_lookup (l : List (String × CandInfo))
    (acc : List (String × List (String × CandInfo))) (n : String) (hn : n ≠ "") :
    dictLookup (l.foldl
      (fun acc p => if p.2.name ≠ "" then groupAppend acc p.2.name p else acc) acc) n =
      match dictLookup acc n with
      | some g => some (g ++ l.filter (fun p => decide (p.2.name = n)))
      | none =>
          if l.filter (fun p => decide (p.2.name = n)) = [] then none
          else some (l.filter (fun p => decide (p.2.name = n))) := by
  induction l generalizing acc with
  | nil =>
      simp only [List.foldl_nil, List.filter_nil]
      cases dictLookup acc n with
      | none => simp
      | some g => simp
  | cons p l ih =>
      rw [List.foldl_cons, List.filter_cons]
      by_cases hpn : p.2.name ≠ ""
      · rw [if_pos hpn]
        by_cases hpe : p.2.name = n
        · simp only [hpe, decide_True, if_true]
          rw [ih]
          rw [hpe] at *
          rw [dictLookup_groupAppend_self]
          cases hacc : dictLookup acc n with
          | none => simp [hacc]
          | some g => simp [hacc]
        · simp only [hpe, decide_False, Bool.false_eq_true, if_false]
          rw [ih]
          rw [dictLookup_groupAppend_ne acc p.2.name n p (fun hc => hpe hc.symm)]
      · rw [if_neg hpn]
        have hpe : ¬(p.2.name = n) := by
          intro hc
          apply hn
          rw [← hc]
          exact not_not.mp hpn
        simp only [hpe, decide_False, Bool.false_eq_true, if_false]
        exact ih _

theorem nameGroups_lookup (mapping : List (String × CandInfo)) (n : String)
    (hn : n ≠ "") :
    dictLookup (nameGroups mapping) n =
      if mapping.filter (fun p => decide (p.2.name = n)) = [] then none
      else some (mapping.filter (fun p => decide (p.2.name = n))) := by
  unfold nameGroups
  rw [nameGroupsFold_lookup mapping [] n hn]
  simp [dictLookup]

theorem foldlMax_eq_of_max {α : Type} (lt : α → α → Bool)
    (hasym : ∀ a b : α, lt a b = true → lt b a = true → False) (k : α) :
    ∀ (ys : List α) (c : α), (k ∈ ys ∨ c = k) → (c = k ∨ lt c k = true) →
      (∀ y ∈ ys, y = k ∨ lt y k = true) →
      ys.foldl (fun c y => if lt c y then y else c) c = k
  | [], c, hin, hc, _ => by
      rcases hin with hin | hin
      · cases hin
      · simpa using hin
  | y :: ys, c, hin, hc, hall => by
      rw [List.foldl_cons]
      by_cases hy : y = k
      · subst hy
        by_cases hlt : lt c y = true
        · rw [if_pos hlt]
          exact foldlMax_eq_of_max lt hasym y ys y (Or.inr rfl) (Or.inl rfl)
            (fun z hz => hall z (List.mem_cons_of_mem _ hz))
        · rw [if_neg hlt]
          rcases hc with hc | hc
          · subst hc
            exact foldlMax_eq_of_max lt hasym c ys c (Or.inr rfl) (Or.inl rfl)
              (fun z hz => hall z (List.mem_cons_of_mem _ hz))
          · exact absurd hc hlt
      · have hyk : lt y k = true := (hall y (by simp)).resolve_left hy
        by_cases hlt : lt c y = true
        · rw [if_pos hlt]
          refine foldlMax_eq_of_max lt hasym k ys y ?_ (Or.inr hyk)
            (fun z hz => hall z (List.mem_cons_of_mem _ hz))
          rcases hin with hin | hin
          · rcases List.mem_cons.mp hin with h' | h'
            · exact absurd h'.symm hy
            · exact Or.inl h'
          · subst hin
            exact (hasym _ _ hlt hyk).elim
        · rw [if_neg hlt]
          refine foldlMax_eq_of_max lt hasym k ys c ?_ hc
            (fun z hz => hall z (List.mem_cons_of_mem _ hz))
          rcases hin with hin | hin
          · rcases List.mem_cons.mp hin with h' | h'
            · exact absurd h'.symm hy
            · exact Or.inl h'
          · exact Or.inr hin

theorem firstMax_eq_of_max {α : Type} (lt : α → α → Bool)
    (hasym : ∀ a b : α, lt a b = true → lt b a = true → False)
    (l : List α) (k : α) (hk : k ∈ l)
    (hmax : ∀ c ∈ l, c = k ∨ lt c k = true) : firstMax lt l = some k := by
  cases l with
  | nil => cases hk
  | cons y ys =>
      simp only [firstMax, Option.some.injEq]
      refine foldlMax_eq_of_max lt hasym k ys y ?_ (hmax y (by simp)) ?_
      · rcases List.mem_cons.mp hk with h' | h'
        · exact Or.inr h'.symm
        · exact Or.inl h'
      · exact fun z hz => hmax z (List.mem_cons_of_mem _ hz)

theorem confEcLt_asymm :
    ∀ a b : String × CandInfo, confEcLt a b = true → confEcLt b a = true → False := by
  intro a b hab hba
  unfold confEcLt at hab hba
  simp only [Bool.or_eq_true, Bool.and_eq_true, decide_eq_true_eq] at hab hba
  rcases hab with h1 | ⟨h1, h2⟩ <;> rcases hba with h3 | ⟨h3, h4⟩
  · exact absurd h3 (lt_asymm h1)
  · rw [h3] at h1
    exact absurd h1 (lt_irrefl _)
  · rw [h1] at h3
    exact absurd h3 (lt_irrefl _)
  · omega

theorem dedupFold_lookup_none (gs : List (String × List (String × CandInfo)))
    (acc : List (String × CandInfo)) (s : String)
    (h : ∀ g ∈ gs, ∀ w, groupWinner g.2 = some w → w.1 ≠ s) :
    dictLookup (gs.foldl
      (fun refined g =>
        match groupWinner g.2 with
        | some w => dictInsert refined w.1 w.2
        | none => refined) acc) s = dictLookup acc s := by
  induction gs generalizing acc with
  | nil => rfl
  | cons g gs ih =>
      rw [List.foldl_cons]
      rw [ih _ (fun g' hg' w hw => h g' (List.mem_cons_of_mem _ hg') w hw)]
      cases hw : groupWinner g.2 with
      | none => simp
      | some w =>
          simp only
          exact dictLookup_dictInsert_ne acc w.1 s w.2
            (fun he => h g (by simp) w hw he.symm)

/-- C6: duplicate resolution.  When several initial candidates claim the
same (non-empty) name and one claimant strictly dominates every other
claimant in the Python key order `(confidence, evidence_count)`, the
duplicate-resolution step of `apply_elimination_method` keeps exactly that
claimant (its entry survives into the refined mapping unchanged) and
demotes every other claimant of that name to unmapped (their keys are
absent from the refined mapping). -/
theorem claim_C6_duplicate_resolution (mapping : List (String × CandInfo))
    (nm : String) (k : String × CandInfo)
    (hnodup : (mapping.map Prod.fst).Nodup)
    (hnm : nm ≠ "")
    (hk : k ∈ mapping.filter (fun p => decide (p.2.name = nm)))
    (hlen : 2 ≤ (mapping.filter (fun p => decide (p.2.name = nm))).length)
    (hmax : ∀ c ∈ mapping.filter (fun p => decide (p.2.name = nm)), c ≠ k →
      confEcLt c k = true) :
    dictLookup (dedupMapping mapping) k.1 = some k.2 ∧
    ∀ c ∈ mapping.filter (fun p => decide (p.2.name = nm)), c.1 ≠ k.1 →
      dictLookup (dedupMapping mapping) c.1 = none := by
  have hkmap : k ∈ mapping := List.mem_of_mem_filter hk
  have hkname : k.2.name = nm := by simpa using List.of_mem_filter hk
  have hFne : mapping.filter (fun p => decide (p.2.name = nm)) ≠ [] :=
    List.ne_nil_of_mem hk
  have hF : dictLookup (nameGroups mapping) nm =
      some (mapping.filter (fun p => decide (p.2.name = nm))) := by
    rw [nameGroups_lookup mapping nm hnm, if_neg hFne]
  have hmemG : (nm, mapping.filter (fun p => decide (p.2.name = nm))) ∈
      nameGroups mapping := dictLookup_eq_some_mem _ _ _ hF
  have hwin : groupWinner (mapping.filter (fun p => decide (p.2.name = nm))) =
      some k := by
    unfold groupWinner
    rw [if_pos (by omega :
      1 < (mapping.filter (fun p => decide (p.2.name = nm))).length)]
    refine firstMax_eq_of_max confEcLt confEcLt_asymm _ k hk ?_
    intro c hc
    by_cases hck : c = k
    · exact Or.inl hck
    · exact Or.inr (hmax c hc hck)
  have hother : ∀ g ∈ nameGroups mapping, g.1 ≠ nm →
      ∀ w, groupWinner g.2 = some w →
      ∀ c ∈ mapping.filter (fun p => decide (p.2.name = nm)), w.1 ≠ c.1 := by
    intro g hg hgne w hw c hc hcon
    have hg1 : dictLookup (nameGroups mapping) g.1 = some g.2 :=
      dictLookup_of_mem_nodup _ g (nameGroups_keys_nodup mapping) hg
    have hgne' : g.1 ≠ "" := nameGroups_keys_ne_empty mapping g hg
    rw [nameGroups_lookup mapping g.1 hgne'] at hg1
    by_cases hfe : mapping.filter (fun p => decide (p.2.name = g.1)) = []
    · rw [if_pos hfe] at hg1
      cases hg1
    · rw [if_neg hfe] at hg1
      have hg2 : g.2 = mapping.filter (fun p => decide (p.2.name = g.1)) := by
        simpa using hg1.symm
      have hwmem : w ∈ g.2 := groupWinner_mem _ w hw
      rw [hg2] at hwmem
      have hwmap : w ∈ mapping := List.mem_of_mem_filter hwmem
      have hwname : w.2.name = g.1 := by simpa using List.of_mem_filter hwmem
      have hcmap : c ∈ mapping := List.mem_of_mem_filter hc
      have hcname : c.2.name = nm := by simpa using List.of_mem_filter hc
      have hwc : w = c := mem_eq_of_keys_nodup mapping w c hnodup hwmap hcmap hcon
      rw [hwc, hcname] at hwname
      exact hgne hwname.symm
  obtain ⟨G1, G2, hsplit⟩ := List.append_of_mem hmemG
  have hGnodup := nameGroups_keys_nodup mapping
  rw [hsplit] at hGnodup
  simp only [List.map_append, List.map_cons] at hGnodup
  have hnm2 : nm ∉ G2.map Prod.fst := by
    have hsub : (nm :: G2.map Prod.fst).Nodup :=
      List.Nodup.sublist (List.sublist_append_right _ _) hGnodup
    exact (List.nodup_cons.mp hsub).1
  have hG2ne : ∀ g ∈ G2, g.1 ≠ nm := by
    intro g hg hc
    exact hnm2 (hc ▸ List.mem_map_of_mem Prod.fst hg)
  have hG2mem : ∀ g ∈ G2, g ∈ nameGroups mapping := by
    intro g hg
    rw [hsplit]
    exact List.mem_append_right _ (List.mem_cons_of_mem _ hg)
  constructor
  · unfold dedupMapping
    rw [hsplit, List.foldl_append, List.foldl_cons]
    have hG2w : ∀ g ∈ G2, ∀ w, groupWinner g.2 = some w → w.1 ≠ k.1 := by
      intro g hg w hw
      exact hother g (hG2mem g hg) (hG2ne g hg) w hw k hk
    rw [dedupFold_lookup_none G2 _ k.1 hG2w]
    dsimp only
    rw [hwin]
    exact dictLookup_dictInsert_self _ _ _
  · intro c hc hck
    unfold dedupMapping
    have hallG : ∀ g ∈ nameGroups mapping, ∀ w, groupWinner g.2 = some w →
        w.1 ≠ c.1 := by
      intro g hg w hw
      by_cases hgnm : g.1 = nm
      · have hg1 : dictLookup (nameGroups mapping) g.1 = some g.2 :=
          dictLookup_of_mem_nodup _ g (nameGroups_keys_nodup mapping) hg
        rw [hgnm, hF] at hg1
        have hg2 : g.2 = mapping.filter (fun p => decide (p.2.name = nm)) := by
          simpa using hg1.symm
        rw [hg2, hwin] at hw
        have hwk : w = k := by
          have := hw.symm
          simpa using this
        rw [hwk]
        exact fun he => hck he.symm
      · exact hother g hg hgnm w hw c hc
    rw [dedupFold_lookup_none (nameGroups mapping) [] c.1 hallG]
    rfl

/-- C6 witness: the duplicate-resolution theorem at the specification's
scenario — SPEAKER_00 claims "Lee" with confidence 0.8 over 3 mentions,
SPEAKER_01 claims "Lee" with confidence 0.6 over 1 mention; SPEAKER_00
keeps "Lee" and SPEAKER_01 is demoted to unmapped. -/
theorem claim_C6_duplicate_resolution_witness :
    (2 ≤ ([("SPEAKER_00", (⟨"Lee", 4/5, 3, none, none⟩ : CandInfo)),
       ("SPEAKER_01", ⟨"Lee", 3/5, 1, none, none⟩)].filter
       (fun p => decide (p.2.name = "Lee"))).length) ∧
    dictLookup (dedupMapping
        [("SPEAKER_00", ⟨"Lee", 4/5, 3, none, none⟩),
         ("SPEAKER_01", ⟨"Lee", 3/5, 1, none, none⟩)]) "SPEAKER_00" =
      some ⟨"Lee", 4/5, 3, none, none⟩ ∧
    ∀ c ∈ [("SPEAKER_00", (⟨"Lee", 4/5, 3, none, none⟩ : CandInfo)),
        ("SPEAKER_01", ⟨"Lee", 3/5, 1, none, none⟩)].filter
        (fun p => decide (p.2.name = "Lee")), c.1 ≠ "SPEAKER_00" →
      dictLookup (dedupMapping
        [("SPEAKER_00", ⟨"Lee", 4/5, 3, none, none⟩),
         ("SPEAKER_01", ⟨"Lee", 3/5, 1, none, none⟩)]) c.1 = none := by
  have hfil : [("SPEAKER_00", (⟨"Lee", 4/5, 3, none, none⟩ : CandInfo)),
      ("SPEAKER_01", ⟨"Lee", 3/5, 1, none, none⟩)].filter
      (fun p => decide (p.2.name = "Lee")) =
      [("SPEAKER_00", ⟨"Lee", 4/5, 3, none, none⟩),
       ("SPEAKER_01", ⟨"Lee", 3/5, 1, none, none⟩)] := by
    simp
  have hmax : ∀ c ∈ [("SPEAKER_00", (⟨"Lee", 4/5, 3, none, none⟩ : CandInfo)),
      ("SPEAKER_01", ⟨"Lee", 3/5, 1, none, none⟩)].filter
      (fun p => decide (p.2.name = "Lee")),
      c ≠ ("SPEAKER_00", (⟨"Lee", 4/5, 3, none, none⟩ : CandInfo)) →
      confEcLt c ("SPEAKER_00", ⟨"Lee", 4/5, 3, none, none⟩) = true := by
    intro c hc hck
    rw [hfil] at hc
    rcases List.mem_cons.mp hc with hce | hcm
    · exact absurd hce hck
    · have hce : c = ("SPEAKER_01", ⟨"Lee", 3/5, 1, none, none⟩) := by
        simpa using hcm
      rw [hce]
      norm_num [confEcLt]
  have h := claim_C6_duplicate_resolution
    [("SPEAKER_00", ⟨"Lee", 4/5, 3, none, none⟩),
     ("SPEAKER_01", ⟨"Lee", 3/5, 1, none, none⟩)]
    "Lee" ("SPEAKER_00", ⟨"Lee", 4/5, 3, none, none⟩)
    (by simp) (by simp) (by rw [hfil]; simp) (by rw [hfil]; simp) hmax
  exact ⟨by rw [hfil]; simp, h.1, h.2⟩
